import Mathlib

/-!
RxLite — a shallow embedding of the emission protocol

This file embeds the core of the RxLite reactive-stream library in Lean and
settles the specification's claims about it.

The embedding is sequential: every entity that in C++ is a set of callbacks
plus shared mutable cells becomes an explicit state record, and every public
operation becomes a state-transition function translated line by line from the
corresponding C++ member function.  The type-erased error handle
(`std::exception_ptr`) is modelled as a `Nat` identifier; values carried
by a stream are a type parameter `α`.

Sources embedded here:
* `src/include/observer.hpp`    — `Subscriber<T>::next/error/complete`,
  `impl::SubscriberBase::unsubscribe/isInactive`;
* `src/include/subscription.hpp` — `Subscription::unsubscribe`,
  `Subscription::~Subscription`, the shared `Execution` record;
* `src/include/subject/subject.hpp` and `subject/replay_subject.hpp` —
  the multicast hubs;
* `src/include/observable.hpp`  — `Observable<T>::from`;
* `src/include/operator.hpp`    — `combineLatest`, `withLatestFrom`;
* the `merge` operator, which the test suite uses but whose implementation is
  not among the sources, is modelled from the spec (see its doc comment).
-/

namespace RxLite

/-- A callback invocation delivered to an `Observer`: `onNext` with a value,
`onError` with a type-erased error handle, or `onComplete`. -/
inductive Ev (α : Type) where
  | onNext (v : α) : Ev α
  | onError (e : Nat) : Ev α
  | onComplete : Ev α
deriving DecidableEq, Repr

/-- Is this event a terminal signal (`onError` or `onComplete`)? -/
def Ev.isTerminal : Ev α → Bool
  | .onError _ => true
  | .onComplete => true
  | .onNext _ => false

/-- Is this event an `onNext`? -/
def Ev.isNext : Ev α → Bool
  | .onNext _ => true
  | _ => false

/-- Is this event an `onError`? -/
def Ev.isError : Ev α → Bool
  | .onError _ => true
  | _ => false

/-- Number of terminal signals in an event list. -/
def terminalCount (es : List (Ev α)) : Nat :=
  (es.filter Ev.isTerminal).length

/-- `true` iff every terminal signal in the list is its last element, i.e.
nothing is delivered after a terminal. -/
def lastOnlyTerminal : List (Ev α) → Bool
  | [] => true
  | e :: rest => if e.isTerminal then rest.isEmpty else lastOnlyTerminal rest

/-- State of one `Subscriber<T>` (observer.hpp): the shared atomic
`inactive` flag of `impl::SubscriberBase`, together with the trace of
callbacks that were actually invoked on the wrapped `Observer`. -/
structure SubState (α : Type) where
  inactive : Bool
  events : List (Ev α)
deriving DecidableEq, Repr

/-- A freshly created Subscriber: flag `false`, nothing delivered yet. -/
def SubState.init : SubState α := ⟨false, []⟩

/-- `Subscriber<T>::next` (observer.hpp:123): if the shared inactive flag is
set, return silently; otherwise invoke the Observer's `onNext`. -/
def SubState.next (v : α) (s : SubState α) : SubState α :=
  if s.inactive then s
  else { s with events := s.events ++ [Ev.onNext v] }

/-- `Subscriber<T>::error` (observer.hpp:138): `exchange(true)` on the flag;
if it was already set return silently, otherwise invoke `onError`. -/
def SubState.error (e : Nat) (s : SubState α) : SubState α :=
  if s.inactive then s
  else { inactive := true, events := s.events ++ [Ev.onError e] }

/-- `Subscriber<T>::complete` (observer.hpp:151): `exchange(true)` on the
flag; if it was already set return silently, otherwise invoke `onComplete`. -/
def SubState.complete (s : SubState α) : SubState α :=
  if s.inactive then s
  else { inactive := true, events := s.events ++ [Ev.onComplete] }

/-- `impl::SubscriberBase::unsubscribe` (observer.hpp:57): unconditionally
store `true` into the shared inactive flag; no callback is invoked. -/
def SubState.unsubscribe (s : SubState α) : SubState α :=
  { s with inactive := true }

/-- One call a producer (or a Subscription) can place on a Subscriber. -/
inductive SubCall (α : Type) where
  | next (v : α) : SubCall α
  | error (e : Nat) : SubCall α
  | complete : SubCall α
  | unsubscribe : SubCall α
deriving DecidableEq, Repr

/-- Apply one call to a Subscriber state. -/
def SubState.applyCall (s : SubState α) : SubCall α → SubState α
  | .next v => s.next v
  | .error e => s.error e
  | .complete => s.complete
  | .unsubscribe => s.unsubscribe

/-- Run a sequence of calls against a fresh Subscriber. -/
def runCalls (cs : List (SubCall α)) : SubState α :=
  cs.foldl SubState.applyCall SubState.init

/-! ### Invariant of the Subscriber state machine -/

/-- The protocol invariant a Subscriber state maintains: while the flag is
down no terminal has been delivered, and a delivered terminal is always the
last delivered event. -/
def SubState.good (s : SubState α) : Prop :=
  (s.inactive = false → terminalCount s.events = 0) ∧
    lastOnlyTerminal s.events = true

/-! ### Subscription (subscription.hpp)

A `Subscription` owns a `shared_ptr<Execution>`; the `Execution` record holds
the Subscriber's shared inactive flag, the teardown closure and an atomic
`running` flag.  Copies of a Subscription share the same `Execution`
(`shared_ptr` copy).  We track the number of live Subscription handles
(`copies`, the `use_count`), the `running` flag, the Subscriber's shared
inactive flag, and how many times the teardown closure has run. -/

/-- The shared `Subscription::Execution` record (subscription.hpp:72)
together with the `shared_ptr` reference count over it. -/
structure ExecState where
  copies : Nat
  running : Bool
  subInactive : Bool
  teardownRuns : Nat
deriving DecidableEq, Repr

/-- State right after `Observable::subscribe` returned a Subscription:
one handle, `running = true`, subscriber flag still down, teardown not run. -/
def ExecState.mk0 : ExecState := ⟨1, true, false, 0⟩

/-- Operations that touch a subscription's `Execution`. -/
inductive ExecOp where
  /-- A terminal signal (`error`/`complete`) delivered through the
  Subscriber: `exchange(true)` on the shared inactive flag
  (observer.hpp:139/152); nothing else in the Execution is touched. -/
  | subTerminal : ExecOp
  /-- `Subscription::unsubscribe` (subscription.hpp:57) called on any copy:
  if `running.exchange(false)` was `true`, unsubscribe the Subscriber and run
  the teardown closure. -/
  | unsubscribe : ExecOp
  /-- Copying the Subscription handle (`shared_ptr` copy). -/
  | copy : ExecOp
  /-- `Subscription::~Subscription` (subscription.hpp:30) on one copy: only
  when `use_count() == 1` (this is the last copy) and `running.exchange(false)`
  was `true` does it unsubscribe the Subscriber and run teardown. -/
  | drop : ExecOp
deriving DecidableEq, Repr

/-- One step of the Execution state machine. -/
def ExecState.step (s : ExecState) : ExecOp → ExecState
  | .subTerminal => { s with subInactive := true }
  | .unsubscribe =>
      if s.running then
        { s with running := false, subInactive := true,
                 teardownRuns := s.teardownRuns + 1 }
      else s
  | .copy => { s with copies := s.copies + 1 }
  | .drop =>
      if s.copies = 1 then
        if s.running then
          { copies := 0, running := false, subInactive := true,
            teardownRuns := s.teardownRuns + 1 }
        else { s with copies := 0 }
      else { s with copies := s.copies - 1 }

/-- Run a list of operations from the initial subscription state. -/
def runExec (ops : List ExecOp) : ExecState :=
  ops.foldl ExecState.step ExecState.mk0

/-- An operation sequence is well formed when every operation that needs a
live Subscription handle (`unsubscribe`, `copy`, `drop`) finds one.
Terminal signals come from the producer and need no handle. -/
def execWFFrom (s : ExecState) : List ExecOp → Bool
  | [] => true
  | op :: rest =>
      match op with
      | .subTerminal => execWFFrom (s.step op) rest
      | _ => decide (1 ≤ s.copies) && execWFFrom (s.step op) rest

/-- Well-formedness from the initial state. -/
def execWF (ops : List ExecOp) : Bool := execWFFrom ExecState.mk0 ops

/-- The core Execution invariant: `running` is down exactly when the
teardown has run, and it runs at most once. -/
def ExecState.inv (s : ExecState) : Prop :=
  (s.running = true ∧ s.teardownRuns = 0) ∨
    (s.running = false ∧ s.teardownRuns = 1)

/-! ### Subject (subject/subject.hpp)

The `impl::SubscriberManager<T>` holds a list of Subscribers; we give every
Subscriber ever created an id (its index in `states`) and keep the manager's
list as the id list `live` in insertion order.  The embedding is sequential,
so the manager's try-lock pruning always succeeds.  `Subject<T>::error` is
not modelled: `impl::SubjectBase<T>::broadcastError` refers to a member
`this->subscribers` that does not exist in `SubjectBase`, so instantiating
it is ill-formed C++. -/

/-- The subscriber out-of-range default: treated as permanently inactive. -/
def getSub (sts : List (SubState α)) (i : Nat) : SubState α :=
  sts.getD i ⟨true, []⟩

/-- State of one `Subject<T>`: all Subscribers ever created (`states`, by
id) and the manager's current list (`live`). -/
structure SubjectState (α : Type) where
  states : List (SubState α)
  live : List Nat
deriving DecidableEq, Repr

/-- A fresh Subject: no subscribers. -/
def SubjectState.init : SubjectState α := ⟨[], []⟩

/-- `impl::SubscriberManager<T>::removeInactive` (subject.hpp:37): drop from
the manager's list every subscriber whose inactive flag is set. -/
def pruneLive (sts : List (SubState α)) (live : List Nat) : List Nat :=
  live.filter (fun i => !(getSub sts i).inactive)

/-- Deliver one Subscriber call to subscriber `i` inside the pool. -/
def deliverAt (f : SubState α → SubState α) (sts : List (SubState α))
    (i : Nat) : List (SubState α) :=
  sts.set i (f (getSub sts i))

/-- `Subject<T>::next` = `impl::SubjectBase<T>::broadcastValue`
(subject.hpp:73): prune inactive subscribers, then invoke `next(value)` on
each remaining subscriber in insertion order. -/
def SubjectState.next (v : α) (st : SubjectState α) : SubjectState α :=
  let live := pruneLive st.states st.live
  { states := live.foldl (deliverAt (SubState.next v)) st.states,
    live := live }

/-- `Subject<T>::complete` = `impl::SubjectBase<T>::broadcastCompletion`
(subject.hpp:89): prune, invoke `complete()` on each remaining subscriber in
order, then clear the manager's list. -/
def SubjectState.complete (st : SubjectState α) : SubjectState α :=
  let live := pruneLive st.states st.live
  { states := live.foldl (deliverAt SubState.complete) st.states,
    live := [] }

/-- `Subject<T>::subscribe`: `Observable::subscribe` creates a fresh
Subscriber and invokes the Subject's `onSubscribe` (subject.hpp:143), which
only appends the Subscriber to the manager.  No value and no terminal is
delivered to the new Subscriber, whatever state the Subject is in. -/
def SubjectState.subscribe (st : SubjectState α) : SubjectState α :=
  { states := st.states ++ [SubState.init],
    live := st.live ++ [st.states.length] }

/-! ### ReplaySubject (subject/replay_subject.hpp) -/

/-- State of one `ReplaySubject<T>`: the inherited Subject state plus the
replay `history` deque and the `bufferSize` capacity (0 = unbounded). -/
structure ReplayState (α : Type) where
  subj : SubjectState α
  history : List α
  bufferSize : Nat
deriving DecidableEq, Repr

/-- `ReplaySubject<T>::ReplaySubject(bufferSize)`. -/
def ReplayState.init (c : Nat) : ReplayState α := ⟨SubjectState.init, [], c⟩

/-- The history update inside `ReplaySubject<T>::next`
(replay_subject.hpp:62): if `bufferSize` is nonzero and the deque is at
capacity, erase the oldest element; then push the new value. -/
def histStep (c : Nat) (h : List α) (v : α) : List α :=
  if c ≠ 0 ∧ h.length = c then h.drop 1 ++ [v] else h ++ [v]

/-- `ReplaySubject<T>::next` (replay_subject.hpp:59): broadcast the value,
then update the history deque. -/
def ReplayState.next (v : α) (st : ReplayState α) : ReplayState α :=
  { st with subj := st.subj.next v,
            history := histStep st.bufferSize st.history v }

/-- `ReplaySubject<T>::complete` (replay_subject.hpp:88): just
`broadcastCompletion`; the history and the terminal are *not* recorded. -/
def ReplayState.complete (st : ReplayState α) : ReplayState α :=
  { st with subj := st.subj.complete }

/-- `ReplaySubject<T>::createOnSubscribe` (replay_subject.hpp:93): replay
the whole history to the fresh Subscriber via `next`, then append it to the
manager. -/
def ReplayState.subscribe (st : ReplayState α) : ReplayState α :=
  let fresh := st.history.foldl (fun s v => s.next v) SubState.init
  { st with subj := { states := st.subj.states ++ [fresh],
                      live := st.subj.live ++ [st.subj.states.length] } }

/-- Feed a list of values into a ReplaySubject. -/
def ReplayState.nexts (vs : List α) (st : ReplayState α) : ReplayState α :=
  vs.foldl (fun s v => s.next v) st

/-- The buffered suffix the replay deque holds after receiving `vs` with
capacity `c`: all of `vs` when unbounded, otherwise the last `c` values. -/
def expectedHistory (c : Nat) (vs : List α) : List α :=
  if c = 0 then vs else vs.drop (vs.length - c)

/-! ### `Observable<T>::from` (observable.hpp:68)

The producer loop `for (t : values) subscriber.next(t); subscriber.complete();`
issues a `next` call for *every* element — there is no inactivity check and no
break in the loop.  To expose the difference between "the producer calls
`Subscriber::next`" and "the Observer receives `onNext`", the run counts
producer-issued `next` calls.  The consumer is modelled by `react`: after a
value is actually *delivered*, `react v = true` means the consumer
unsubscribes from inside its `on_next` callback (re-entrant unsubscribe,
which the library explicitly tolerates). -/

/-- One iteration of the `from` loop on `(subscriber, producer-call count)`:
the producer calls `next v` unconditionally; if the value was delivered and
the consumer reacts, the Subscriber's flag is flipped before the next
iteration. -/
def fromStep (react : α → Bool) (acc : SubState α × Nat) (v : α) :
    SubState α × Nat :=
  let delivered := !acc.1.inactive
  let s1 := acc.1.next v
  (if delivered && react v then s1.unsubscribe else s1, acc.2 + 1)

/-- Run `Observable<T>::from(vs)`'s `onSubscribe` against a fresh
Subscriber: loop over all values, then call `complete()`. -/
def fromRun (vs : List α) (react : α → Bool) : SubState α × Nat :=
  let r := vs.foldl (fromStep react) (SubState.init, 0)
  (r.1.complete, r.2)

/-- The values actually delivered: everything up to and including the first
value at which the consumer unsubscribes. -/
def deliveredUpTo (react : α → Bool) : List α → List α
  | [] => []
  | v :: rest => if react v then [v] else v :: deliveredUpTo react rest

/-! ### Multi-input operators (operator.hpp)

`combineLatest`, `withLatestFrom` and `merge` subscribe one intermediate
Observer per input.  Each input's calls pass through the Subscriber created
by that input's `Observable::subscribe`, so each input has its own inactive
latch (`ups`).  Inputs are numbered `0 .. n` with the source in slot 0; an
upstream event is a pair `(i, ev)`. -/

/-- An event an upstream input delivers into an operator. -/
inductive InEv (α : Type) where
  | next (v : α) : InEv α
  | complete : InEv α
  | error (e : Nat) : InEv α
deriving DecidableEq, Repr

/-- Is this upstream event a terminal (complete or error)? -/
def InEv.isTerminal : InEv α → Bool
  | .complete => true
  | .error _ => true
  | .next _ => false

/-- Is this upstream event an error? -/
def InEv.isErr : InEv α → Bool
  | .error _ => true
  | _ => false

/-- A trace of upstream events is well formed when every event names a real
input (`i ≤ n`), no input emits anything after its own terminal, and —
unless `allowErr` — no input errors.  This is exactly what real upstream
Observables can deliver, because each input's calls are filtered through
its own Subscriber latch. -/
def wfFrom (n : Nat) (allowErr : Bool) :
    List Bool → List (Nat × InEv α) → Bool
  | _, [] => true
  | term, (i, ev) :: rest =>
      decide (i < n + 1) && !(term.getD i true) && (allowErr || !ev.isErr) &&
        wfFrom n allowErr (if ev.isTerminal then term.set i true else term) rest

/-- Well-formedness from the start (no input has terminated yet). -/
def wfTrace (n : Nat) (allowErr : Bool) (tr : List (Nat × InEv α)) : Bool :=
  wfFrom n allowErr (List.replicate (n + 1) false) tr

/-- The per-input "has completed/terminated" set after a trace. -/
def doneAfter (n : Nat) (tr : List (Nat × InEv α)) : List Bool :=
  tr.foldl (fun c p => if p.2.isTerminal then c.set p.1 true else c)
    (List.replicate (n + 1) false)

/-- `emitIfReady`'s readiness test: every slot holds a value. -/
def allSome (slots : List (Option α)) : Bool := slots.all Option.isSome

/-- The tuple of current latest values (meaningful when `allSome`). -/
def currentTuple (slots : List (Option α)) : List α := slots.filterMap id

/-- Per-subscription state of `combineLatest` (operator.hpp:131): the
`latestValues` tuple of optionals, the `completedFlags` array, the inactive
latches of the `1 + |others|` intermediate Subscribers, and the downstream
Subscriber. -/
structure CLState (α : Type) where
  slots : List (Option α)
  flags : List Bool
  ups : List Bool
  down : SubState (List α)
deriving DecidableEq, Repr

/-- State right after `combineLatest`'s `onSubscribe` ran: all slots empty,
no input completed, all subscribers active. -/
def CLState.init (n : Nat) : CLState α :=
  ⟨List.replicate (n + 1) none, List.replicate (n + 1) false,
    List.replicate (n + 1) false, SubState.init⟩

/-- One upstream event processed by `combineLatest`'s intermediate
observers (operator.hpp:154-188).  `next`: store the value in slot `i`,
then `emitIfReady`.  `complete`: latch input `i`, set `completedFlags[i]`,
then `completeIfReady`.  `error`: latch input `i` and forward the error to
the downstream Subscriber — nothing else is cancelled. -/
def CLState.step (s : CLState α) : Nat × InEv α → CLState α
  | (i, .next v) =>
      if s.ups.getD i true then s
      else
        let slots := s.slots.set i (some v)
        { s with
            slots := slots,
            down := if allSome slots then s.down.next (currentTuple slots)
                    else s.down }
  | (i, .complete) =>
      if s.ups.getD i true then s
      else
        let flags := s.flags.set i true
        { s with
            ups := s.ups.set i true,
            flags := flags,
            down := if flags.all id then s.down.complete else s.down }
  | (i, .error e) =>
      if s.ups.getD i true then s
      else { s with ups := s.ups.set i true, down := s.down.error e }

/-- Run `combineLatest` with `n` other inputs over an upstream trace. -/
def clRun (n : Nat) (tr : List (Nat × InEv α)) : CLState α :=
  tr.foldl CLState.step (CLState.init n)

/-- The behaviour §4.6.5 of the spec describes for `combineLatest`, written
independently from the spec's words for comparison with the embedded code:
per input an optional latest slot and a completed flag; on `on_next(v_i)`
store the value and, if all slots are occupied, emit the tuple of latest
values; on an input's `on_complete` mark its flag and, when every flag is
set, complete downstream. -/
structure CLSpec (α : Type) where
  latest : List (Option α)
  compl : List Bool
  out : List (Ev (List α))
deriving DecidableEq, Repr

/-- Initial spec-side state. -/
def CLSpec.init (n : Nat) : CLSpec α :=
  ⟨List.replicate (n + 1) none, List.replicate (n + 1) false, []⟩

/-- One spec-side step (error-free traces). -/
def CLSpec.step (s : CLSpec α) : Nat × InEv α → CLSpec α
  | (i, .next v) =>
      let latest := s.latest.set i (some v)
      { s with
          latest := latest,
          out := if allSome latest
                 then s.out ++ [Ev.onNext (currentTuple latest)]
                 else s.out }
  | (i, .complete) =>
      let c := s.compl.set i true
      { s with
          compl := c,
          out := if c.all id then s.out ++ [Ev.onComplete] else s.out }
  | (_, .error _) => s

/-- Spec-side run. -/
def clSpecRun (n : Nat) (tr : List (Nat × InEv α)) : CLSpec α :=
  tr.foldl CLSpec.step (CLSpec.init n)

/-- The coupling invariant between the embedded `combineLatest` and the
spec-side description, relative to the ghost completed-set `c`. -/
def CLRel (n : Nat) (c : List Bool) (s : CLState α) (t : CLSpec α) : Prop :=
  s.slots = t.latest ∧ s.flags = c ∧ s.ups = c ∧ t.compl = c ∧
    s.down.events = t.out ∧ s.down.inactive = c.all id ∧
    c.length = n + 1 ∧
    (Ev.onComplete ∈ t.out ↔ c.all id = true) ∧
    (allSome s.slots = false → s.down.events.filter Ev.isNext = [])

/-- Per-subscription state of `withLatestFrom` (operator.hpp:257): one
`latestValues` slot per *other* input, the inactive latches of the source
subscriber (index 0) and the other subscribers (index `j+1` for other `j`),
and the downstream Subscriber. -/
structure WLState (α : Type) where
  slots : List (Option α)
  ups : List Bool
  down : SubState (List α)
deriving DecidableEq, Repr

/-- State right after `withLatestFrom`'s `onSubscribe` ran. -/
def WLState.init (n : Nat) : WLState α :=
  ⟨List.replicate n none, List.replicate (n + 1) false, SubState.init⟩

/-- One upstream event processed by `withLatestFrom`'s observers
(operator.hpp:274-307).  Source `next v` (`combinedObserver`): if all other
slots are occupied, push `(v, latest…)` downstream, else drop `v`.  Source
`complete`/`error`: forward downstream.  Other `j`'s `next v`: store the
value in slot `j`, never emit.  Other `j`'s `complete`: no-op on the
downstream (the other's Observer has no `onComplete`).  Other `j`'s
`error`: forward the error downstream.  Each input's calls first pass its
own Subscriber latch. -/
def WLState.step (s : WLState α) : Nat × InEv α → WLState α
  | (0, .next v) =>
      if s.ups.getD 0 true then s
      else if allSome s.slots then
        { s with down := s.down.next (v :: currentTuple s.slots) }
      else s
  | (0, .complete) =>
      if s.ups.getD 0 true then s
      else { s with ups := s.ups.set 0 true, down := s.down.complete }
  | (0, .error e) =>
      if s.ups.getD 0 true then s
      else { s with ups := s.ups.set 0 true, down := s.down.error e }
  | (j + 1, .next v) =>
      if s.ups.getD (j + 1) true then s
      else { s with slots := s.slots.set j (some v) }
  | (j + 1, .complete) =>
      if s.ups.getD (j + 1) true then s
      else { s with ups := s.ups.set (j + 1) true }
  | (j + 1, .error e) =>
      if s.ups.getD (j + 1) true then s
      else { s with ups := s.ups.set (j + 1) true, down := s.down.error e }

/-- Run `withLatestFrom` with `n` other inputs over an upstream trace. -/
def wlRun (n : Nat) (tr : List (Nat × InEv α)) : WLState α :=
  tr.foldl WLState.step (WLState.init n)

/-- The behaviour §4.6.6 of the spec describes for `withLatestFrom`, written
from the spec's words for comparison with the embedded code: keep one
latest slot per other; on the source's `on_next(v)` emit `(v, other₁…)`
when every slot is occupied, else drop; complete downstream exactly on the
source's completion; ignore the others' completions; an other's `on_next`
only stores its value. -/
structure WLSpec (α : Type) where
  latest : List (Option α)
  out : List (Ev (List α))
deriving DecidableEq, Repr

/-- Initial spec-side state. -/
def WLSpec.init (n : Nat) : WLSpec α := ⟨List.replicate n none, []⟩

/-- One spec-side step (error-free traces). -/
def WLSpec.step (t : WLSpec α) : Nat × InEv α → WLSpec α
  | (0, .next v) =>
      { t with out := if allSome t.latest
                      then t.out ++ [Ev.onNext (v :: currentTuple t.latest)]
                      else t.out }
  | (0, .complete) => { t with out := t.out ++ [Ev.onComplete] }
  | (j + 1, .next v) =>
      { t with latest := t.latest.set j (some v) }
  | (_ + 1, .complete) => t
  | (_, .error _) => t

/-- Spec-side run. -/
def wlSpecRun (n : Nat) (tr : List (Nat × InEv α)) : WLSpec α :=
  tr.foldl WLSpec.step (WLSpec.init n)

/-- The coupling invariant between the embedded `withLatestFrom` and the
spec-side description, relative to the ghost terminated-set `c`. -/
def WLRel (n : Nat) (c : List Bool) (s : WLState α) (t : WLSpec α) : Prop :=
  s.slots = t.latest ∧ s.ups = c ∧ s.down.events = t.out ∧
    s.down.inactive = c.getD 0 true ∧ c.length = n + 1

/-! ### C7: `merge` (modelled from the spec) -/

/-- Modelled from the spec: the `merge(others…)` operator.  The test suite
(`operator_test.cpp`, `OperatorTestsuite.MergeTest`) calls
`RxLite::merge<int>(odd)`, but no implementation of `merge` exists among
the source headers; following §4.6.4 of the spec, the operator subscribes
to the source (input 0) and to every other input, forwards each input's
`on_next` downstream immediately, keeps a completion counter initialised
to `1 + |others|` that each input's completion decrements, completes the
downstream when the counter reaches zero, and on any input's error
forwards the error downstream and cancels every input. -/
structure MergeState (α : Type) where
  counter : Nat
  ups : List Bool
  down : SubState α
deriving DecidableEq, Repr

/-- Initial merge state over `n` others: counter `n + 1`, all inputs
active. -/
def MergeState.init (n : Nat) : MergeState α :=
  ⟨n + 1, List.replicate (n + 1) false, SubState.init⟩

/-- One upstream event processed by the modelled `merge`. -/
def MergeState.step (s : MergeState α) : Nat × InEv α → MergeState α
  | (i, .next v) =>
      if s.ups.getD i true then s
      else { s with down := s.down.next v }
  | (i, .complete) =>
      if s.ups.getD i true then s
      else
        { s with
            ups := s.ups.set i true,
            counter := s.counter - 1,
            down := if s.counter - 1 = 0 then s.down.complete else s.down }
  | (i, .error e) =>
      if s.ups.getD i true then s
      else
        { counter := s.counter,
          ups := List.replicate s.ups.length true,
          down := s.down.error e }

/-- Run the modelled `merge` with `n` others over an upstream trace. -/
def mergeRun (n : Nat) (tr : List (Nat × InEv α)) : MergeState α :=
  tr.foldl MergeState.step (MergeState.init n)

/-- The values carried by the `next` events of a trace, in order. -/
def trNexts (tr : List (Nat × InEv α)) : List α :=
  tr.filterMap fun p =>
    match p.2 with
    | .next v => some v
    | _ => none

/-- The coupling invariant for the modelled `merge`, relative to the ghost
terminated-set `c` and the values `xs` forwarded so far. -/
def MRel (n : Nat) (c : List Bool) (xs : List α) (s : MergeState α) : Prop :=
  s.ups = c ∧ s.counter = c.count false ∧ s.down.inactive = c.all id ∧
    s.down.events = xs.map Ev.onNext ++
      (if c.all id then [Ev.onComplete] else []) ∧
    c.length = n + 1

/-! ### C8: error handling in `combineLatest` / `withLatestFrom` -/

/-- Did any input error in the trace? -/
def anyErr (tr : List (Nat × InEv α)) : Bool := tr.any fun p => p.2.isErr

/-- Completion-only ghost update (which inputs have *completed*, as opposed
to merely terminated). -/
def complStep (k : List Bool) (p : Nat × InEv α) : List Bool :=
  match p.2 with
  | .complete => k.set p.1 true
  | _ => k

/-- Ghost transformer for the `combineLatest` error analysis:
terminated-set, completed-set, error-seen flag. -/
def clGhost (g : List Bool × List Bool × Bool) (p : Nat × InEv α) :
    List Bool × List Bool × Bool :=
  (if p.2.isTerminal then g.1.set p.1 true else g.1,
   complStep g.2.1 p,
   g.2.2 || p.2.isErr)

/-- The `combineLatest` coupling invariant for traces with errors:
`c` = terminated inputs, `k` = completed inputs, `b` = an error has been
processed. -/
def CLERel (n : Nat) (c k : List Bool) (b : Bool) (s : CLState α) : Prop :=
  s.ups = c ∧ s.flags = k ∧ c.length = n + 1 ∧ k.length = n + 1 ∧
    (∀ j, j < n + 1 → k.getD j false = true → c.getD j true = true) ∧
    s.down.inactive = (k.all id || b) ∧
    (s.down.events.filter Ev.isError).length = (if b then 1 else 0)

/-- Ghost transformer for the `withLatestFrom` error analysis:
terminated-set, and whether an error has been *delivered* downstream (an
error is delivered only while the downstream is still active). -/
def wlGhost (g : List Bool × Bool) (p : Nat × InEv α) : List Bool × Bool :=
  (if p.2.isTerminal then g.1.set p.1 true else g.1,
   g.2 || (p.2.isErr && !(g.1.getD 0 true || g.2)))

/-- The `withLatestFrom` coupling invariant for traces with errors:
`c` = terminated inputs, `f` = an error has been delivered downstream. -/
def WERel (n : Nat) (c : List Bool) (f : Bool) (s : WLState α) : Prop :=
  s.ups = c ∧ c.length = n + 1 ∧
    s.down.inactive = (c.getD 0 true || f) ∧
    (s.down.events.filter Ev.isError).length = (if f then 1 else 0)

theorem terminalCount_nil : terminalCount ([] : List (Ev α)) = 0 := rfl

theorem terminalCount_append (es fs : List (Ev α)) :
    terminalCount (es ++ fs) = terminalCount es + terminalCount fs := by
  simp [terminalCount, List.filter_append]

theorem lastOnlyTerminal_of_count_zero {es : List (Ev α)}
    (h : terminalCount es = 0) : lastOnlyTerminal es = true := by
  induction es with
  | nil => rfl
  | cons e rest ih =>
      simp only [terminalCount, List.filter] at h
      cases he : e.isTerminal with
      | true => simp [he] at h
      | false =>
          simp only [lastOnlyTerminal, he, if_false]
          exact ih (by simpa [terminalCount, he] using h)

theorem lastOnlyTerminal_append_single {es : List (Ev α)} (e : Ev α)
    (h : terminalCount es = 0) :
    lastOnlyTerminal (es ++ [e]) = true := by
  induction es with
  | nil => cases e <;> simp [lastOnlyTerminal, Ev.isTerminal, List.isEmpty]
  | cons x rest ih =>
      simp only [terminalCount, List.filter] at h
      cases hx : x.isTerminal with
      | true => simp [hx] at h
      | false =>
          simp only [List.cons_append, lastOnlyTerminal, hx, if_false]
          exact ih (by simpa [terminalCount, hx] using h)

theorem count_le_one_of_lastOnly {es : List (Ev α)}
    (h : lastOnlyTerminal es = true) : terminalCount es ≤ 1 := by
  induction es with
  | nil => simp [terminalCount]
  | cons e rest ih =>
      simp only [lastOnlyTerminal] at h
      cases he : e.isTerminal with
      | true =>
          rw [he, if_pos rfl] at h
          have : rest = [] := List.isEmpty_iff.mp h
          subst this
          simp [terminalCount, List.filter, he]
      | false =>
          rw [he, if_neg Bool.false_ne_true] at h
          have := ih h
          simpa [terminalCount, List.filter, he] using this

theorem SubState.good_init : (SubState.init : SubState α).good :=
  ⟨fun _ => rfl, rfl⟩

theorem SubState.good_applyCall {s : SubState α} (hs : s.good)
    (c : SubCall α) : (s.applyCall c).good := by
  obtain ⟨h0, hlast⟩ := hs
  cases c with
  | next v =>
      show (s.next v).good
      unfold SubState.next
      by_cases hi : s.inactive = true
      · rw [if_pos hi]; exact ⟨h0, hlast⟩
      · have hz := h0 (by simpa using hi)
        rw [if_neg hi]
        refine ⟨fun _ => ?_, lastOnlyTerminal_append_single _ hz⟩
        rw [terminalCount_append, hz]
        rfl
  | error e =>
      show (s.error e).good
      unfold SubState.error
      by_cases hi : s.inactive = true
      · rw [if_pos hi]; exact ⟨h0, hlast⟩
      · have hz := h0 (by simpa using hi)
        rw [if_neg hi]
        exact ⟨fun hc => by simp at hc, lastOnlyTerminal_append_single _ hz⟩
  | complete =>
      show s.complete.good
      unfold SubState.complete
      by_cases hi : s.inactive = true
      · rw [if_pos hi]; exact ⟨h0, hlast⟩
      · have hz := h0 (by simpa using hi)
        rw [if_neg hi]
        exact ⟨fun hc => by simp at hc, lastOnlyTerminal_append_single _ hz⟩
  | unsubscribe =>
      show s.unsubscribe.good
      refine ⟨fun hc => ?_, hlast⟩
      simp [SubState.unsubscribe] at hc

theorem SubState.good_foldl {s : SubState α} (hs : s.good)
    (cs : List (SubCall α)) : (cs.foldl SubState.applyCall s).good := by
  induction cs generalizing s with
  | nil => exact hs
  | cons c rest ih => exact ih (SubState.good_applyCall hs c)

theorem runCalls_good (cs : List (SubCall α)) : (runCalls cs).good :=
  SubState.good_foldl SubState.good_init cs

/-- **C1.** For every sequence of `next`/`error`/`complete`/`unsubscribe`
calls placed on a fresh Subscriber, the Observer receives at most one
terminal callback (`onError` or `onComplete`), and after that terminal
callback it receives nothing further: every terminal in the delivered trace
is its last element. -/
theorem claim1_terminal_uniqueness (α : Type) (cs : List (SubCall α)) :
    terminalCount (runCalls cs).events ≤ 1 ∧
      lastOnlyTerminal (runCalls cs).events = true := by
  obtain ⟨_, hlast⟩ := runCalls_good cs
  exact ⟨count_le_one_of_lastOnly hlast, hlast⟩

theorem runExec_def (ops : List ExecOp) :
    runExec ops = ops.foldl ExecState.step ExecState.mk0 := rfl

theorem ExecState.inv_mk0 : ExecState.mk0.inv := Or.inl ⟨rfl, rfl⟩

theorem ExecState.inv_step {s : ExecState} (hs : s.inv) (op : ExecOp) :
    (s.step op).inv := by
  cases op with
  | subTerminal => exact hs.imp (fun h => ⟨h.1, h.2⟩) (fun h => ⟨h.1, h.2⟩)
  | unsubscribe =>
      rcases hs with ⟨hr, ht⟩ | ⟨hr, ht⟩
      · simp only [step, hr, if_true]
        exact Or.inr ⟨rfl, by simp [ht]⟩
      · simp only [step, hr]
        exact Or.inr ⟨hr, ht⟩
  | copy => exact hs.imp (fun h => ⟨h.1, h.2⟩) (fun h => ⟨h.1, h.2⟩)
  | drop =>
      rcases hs with ⟨hr, ht⟩ | ⟨hr, ht⟩
      · by_cases hc : s.copies = 1
        · simp only [step, hc, hr, if_true]
          exact Or.inr ⟨rfl, by simp [ht]⟩
        · simp only [step, hc, if_false]
          exact Or.inl ⟨hr, ht⟩
      · by_cases hc : s.copies = 1
        · exact Or.inr (by simp [step, hc, hr, ht])
        · exact Or.inr (by simp [step, hc, hr, ht])

theorem ExecState.inv_foldl {s : ExecState} (hs : s.inv) (ops : List ExecOp) :
    (ops.foldl ExecState.step s).inv := by
  induction ops generalizing s with
  | nil => exact hs
  | cons op rest ih => exact ih (ExecState.inv_step hs op)

/-- A terminal signal leaves `running` and the teardown count untouched. -/
theorem ExecState.step_subTerminal (s : ExecState) :
    (s.step .subTerminal).running = s.running ∧
      (s.step .subTerminal).teardownRuns = s.teardownRuns :=
  ⟨rfl, rfl⟩

/-- If the trace never unsubscribes or drops, the teardown never runs. -/
theorem runExec_teardown_zero_of_terminal_only {ops : List ExecOp}
    (h : ∀ op ∈ ops, op = ExecOp.subTerminal ∨ op = ExecOp.copy) :
    (runExec ops).teardownRuns = 0 ∧ (runExec ops).running = true := by
  suffices H : ∀ (s : ExecState) (ops : List ExecOp),
      (∀ op ∈ ops, op = ExecOp.subTerminal ∨ op = ExecOp.copy) →
      (ops.foldl ExecState.step s).teardownRuns = s.teardownRuns ∧
        (ops.foldl ExecState.step s).running = s.running by
    exact H ExecState.mk0 ops h
  intro s ops hops
  induction ops generalizing s with
  | nil => exact ⟨rfl, rfl⟩
  | cons op rest ih =>
      have hop := hops op (List.mem_cons_self _ _)
      have hrest := fun o ho => hops o (List.mem_cons_of_mem _ ho)
      rcases hop with rfl | rfl
      · exact ih _ hrest
      · exact ih _ hrest

/-- `running` is never reset: once false it stays false. -/
theorem ExecState.running_mono {s : ExecState} (hr : s.running = false)
    (ops : List ExecOp) : (ops.foldl ExecState.step s).running = false := by
  induction ops generalizing s with
  | nil => exact hr
  | cons op rest ih =>
      refine ih ?_
      cases op with
      | subTerminal => exact hr
      | unsubscribe => simp only [step, hr]; exact hr
      | copy => exact hr
      | drop =>
          by_cases hc : s.copies = 1
          · simp [step, hc, hr]
          · simp only [step, hc, if_false]; exact hr

/-- An explicit `unsubscribe` in the trace forces `running = false` at the
end. -/
theorem ExecState.running_false_of_unsub {s : ExecState}
    (ops : List ExecOp) (hmem : ExecOp.unsubscribe ∈ ops) :
    (ops.foldl ExecState.step s).running = false := by
  induction ops generalizing s with
  | nil => cases hmem
  | cons op rest ih =>
      rcases List.mem_cons.mp hmem with rfl | hmem'
      · have : (s.step ExecOp.unsubscribe).running = false := by
          by_cases hr : s.running = true
          · simp [step, hr]
          · have hr' : s.running = false := by simpa using hr
            simp [step, hr']
        exact ExecState.running_mono this rest
      · exact ih hmem'

/-- Under well-formedness, if the handle count is zero at the end and no
explicit unsubscribe happened, the only way there was a final drop, so
`running` is false; stated as: `running = false → copies = 0` is preserved
when no unsubscribe occurs. -/
theorem ExecState.copies_zero_of_running_false {ops : List ExecOp} :
    ∀ (s : ExecState), execWFFrom s ops = true →
    ExecOp.unsubscribe ∉ ops →
    (s.running = false → s.copies = 0) →
    ((ops.foldl ExecState.step s).running = false →
      (ops.foldl ExecState.step s).copies = 0) := by
  induction ops with
  | nil => intro s _ _ hinv; exact hinv
  | cons op rest ih =>
      intro s hwf hmem hinv
      have hmem' : ExecOp.unsubscribe ∉ rest := fun h =>
        hmem (List.mem_cons_of_mem _ h)
      cases op with
      | subTerminal =>
          have hwf' : execWFFrom (s.step .subTerminal) rest = true := hwf
          exact ih _ hwf' hmem' (fun h => hinv h)
      | unsubscribe => exact absurd (List.mem_cons_self _ _) hmem
      | copy =>
          have hc : 1 ≤ s.copies ∧ execWFFrom (s.step .copy) rest = true := by
            simpa [execWFFrom] using hwf
          refine ih _ hc.2 hmem' ?_
          intro hr
          exact absurd (hinv hr ▸ hc.1) (by simp [hinv hr])
      | drop =>
          have hc : 1 ≤ s.copies ∧ execWFFrom (s.step .drop) rest = true := by
            simpa [execWFFrom] using hwf
          refine ih _ hc.2 hmem' ?_
          by_cases h1 : s.copies = 1
          · by_cases hr : s.running = true
            · intro _; simp [ExecState.step, h1, hr]
            · intro _; simp [ExecState.step, h1, hr]
          · intro hr
            have : s.copies = 0 := by
              apply hinv
              simpa [ExecState.step, h1] using hr
            omega

/-- If the trace contains an unsubscribe or ends with no live handle, then
(under well-formedness) the teardown has run exactly once. -/
theorem runExec_teardown_one {ops : List ExecOp} (hwf : execWF ops = true)
    (h : (runExec ops).copies = 0 ∨ ExecOp.unsubscribe ∈ ops) :
    (runExec ops).teardownRuns = 1 := by
  have hinv := ExecState.inv_foldl ExecState.inv_mk0 ops
  rw [← runExec_def] at hinv
  rcases hinv with ⟨hr, ht⟩ | ⟨_, ht⟩
  · -- running still true at the end: show the hypothesis is contradictory
    exfalso
    rcases h with hc | hmem
    · -- copies = 0 while running: impossible, a drop to zero kills running
      -- (we show `copies = 0 → running = false` is invariant under wf)
      have : (runExec ops).running = false := by
        have aux : ∀ (t : ExecState) (l : List ExecOp),
            execWFFrom t l = true → (t.copies = 0 → t.running = false) →
            ((l.foldl ExecState.step t).copies = 0 →
              (l.foldl ExecState.step t).running = false) := by
          intro t l
          induction l generalizing t with
          | nil => intro _ h0; exact h0
          | cons op rest ih =>
              intro hwf' h0
              cases op with
              | subTerminal => exact ih _ hwf' (fun h => h0 h)
              | unsubscribe =>
                  have hc : 1 ≤ t.copies ∧
                      execWFFrom (t.step .unsubscribe) rest = true := by
                    simpa [execWFFrom] using hwf'
                  refine ih _ hc.2 ?_
                  intro _
                  by_cases hr2 : t.running = true <;>
                    simp [ExecState.step, hr2]
              | copy =>
                  have hc : 1 ≤ t.copies ∧
                      execWFFrom (t.step .copy) rest = true := by
                    simpa [execWFFrom] using hwf'
                  exact ih _ hc.2 (fun h => by simp [ExecState.step] at h)
              | drop =>
                  have hc : 1 ≤ t.copies ∧
                      execWFFrom (t.step .drop) rest = true := by
                    simpa [execWFFrom] using hwf'
                  refine ih _ hc.2 ?_
                  by_cases h1 : t.copies = 1
                  · by_cases hr2 : t.running = true <;>
                      (intro _; simp [ExecState.step, h1, hr2])
                  · intro hz
                    have : t.copies - 1 = 0 := by
                      simpa [ExecState.step, h1] using hz
                    omega
        exact aux ExecState.mk0 ops hwf (by intro h; cases h) hc
      rw [this] at hr; simp at hr
    · have h2 := ExecState.running_false_of_unsub (s := ExecState.mk0) ops hmem
      rw [← runExec_def] at h2
      rw [h2] at hr; simp at hr
  · exact ht

/-- **C2 (amended).** For every well-formed sequence of operations on a
subscription (terminal signals, explicit unsubscribes, handle copies and
handle drops), the teardown closure runs at most once; it has run exactly
once by the time an explicit `unsubscribe` has been called or the last
Subscription handle has been dropped; and if the trace consists only of
terminal signals and copies — in particular after a terminal signal alone —
the teardown has not run at all (a terminal signal by itself does not
trigger teardown; that happens only via `Subscription::unsubscribe` or the
destructor of the last copy). -/
theorem claim2_teardown_amended (ops : List ExecOp)
    (hwf : execWF ops = true) :
    (runExec ops).teardownRuns ≤ 1 ∧
      (((runExec ops).copies = 0 ∨ ExecOp.unsubscribe ∈ ops) →
        (runExec ops).teardownRuns = 1) ∧
      ((∀ op ∈ ops, op = ExecOp.subTerminal ∨ op = ExecOp.copy) →
        (runExec ops).teardownRuns = 0) := by
  refine ⟨?_, runExec_teardown_one hwf, fun h =>
    (runExec_teardown_zero_of_terminal_only h).1⟩
  have hinv := ExecState.inv_foldl ExecState.inv_mk0 ops
  rcases hinv with ⟨_, ht⟩ | ⟨_, ht⟩ <;> simp [runExec] at ht ⊢ <;> omega

/-- Witness for C2: deliver a terminal, then explicitly unsubscribe — the
teardown runs exactly once, and it had not yet run right after the
terminal. -/
theorem claim2_teardown_amended_witness :
    execWF [ExecOp.subTerminal, ExecOp.unsubscribe] = true ∧
      (runExec [ExecOp.subTerminal, ExecOp.unsubscribe]).teardownRuns ≤ 1 ∧
      (((runExec [ExecOp.subTerminal, ExecOp.unsubscribe]).copies = 0 ∨
          ExecOp.unsubscribe ∈ [ExecOp.subTerminal, ExecOp.unsubscribe]) →
        (runExec [ExecOp.subTerminal, ExecOp.unsubscribe]).teardownRuns = 1) ∧
      ((∀ op ∈ [ExecOp.subTerminal, ExecOp.unsubscribe],
          op = ExecOp.subTerminal ∨ op = ExecOp.copy) →
        (runExec [ExecOp.subTerminal, ExecOp.unsubscribe]).teardownRuns
          = 0) := by
  refine ⟨by decide, ?_⟩
  have h := claim2_teardown_amended [ExecOp.subTerminal, ExecOp.unsubscribe]
    (by decide)
  exact h

/-- **C2, counterexample to the claim as stated.**  After a subscription is
created and the producer delivers a terminal signal (`complete`), with the
Subscription handle still alive, the teardown closure has run 0 times — not
1 as the claim ("a terminal signal by itself triggers the teardown")
requires.  `Subscriber::error`/`complete` only flip the shared inactive
flag; nothing invokes the `Execution`'s teardown. -/
theorem claim2_counterexample :
    (runExec [ExecOp.subTerminal]).teardownRuns = 0 ∧
      ¬ (runExec [ExecOp.subTerminal]).teardownRuns = 1 := by
  decide

/-- **C10.** Subscription copies share one `Execution` record: destroying a
copy while at least one other copy is alive (`use_count() ≥ 2`) changes
nothing but the reference count — it runs neither the Subscriber's
unsubscribe nor the teardown; the teardown runs at most once over any
well-formed trace; and if it ran at all, an explicit `unsubscribe` occurred
or the last remaining copy was destroyed. -/
theorem claim10_shared_handle_semantics (ops : List ExecOp)
    (hwf : execWF ops = true) :
    (∀ s : ExecState, 2 ≤ s.copies →
        s.step ExecOp.drop = { s with copies := s.copies - 1 }) ∧
      (runExec ops).teardownRuns ≤ 1 ∧
      ((runExec ops).teardownRuns = 1 →
        ExecOp.unsubscribe ∈ ops ∨ (runExec ops).copies = 0) := by
  refine ⟨?_, ?_, ?_⟩
  · intro s hs
    have h1 : ¬ s.copies = 1 := by omega
    simp [ExecState.step, h1]
  · have hinv := ExecState.inv_foldl ExecState.inv_mk0 ops
    rcases hinv with ⟨_, ht⟩ | ⟨_, ht⟩ <;> simp [runExec] at ht ⊢ <;> omega
  · intro hone
    by_cases hmem : ExecOp.unsubscribe ∈ ops
    · exact Or.inl hmem
    · refine Or.inr ?_
      have hinv := ExecState.inv_foldl ExecState.inv_mk0 ops
      rw [← runExec_def] at hinv
      have hrf : (runExec ops).running = false := by
        rcases hinv with ⟨_, ht⟩ | ⟨hr, _⟩
        · rw [hone] at ht; simp at ht
        · exact hr
      exact ExecState.copies_zero_of_running_false ExecState.mk0 hwf hmem
        (by intro h; cases h) hrf

/-- Witness for C10: copy the handle, drop one copy (nothing torn down yet),
then drop the last copy — teardown ran, and the trace indeed ends with no
copies. -/
theorem claim10_shared_handle_semantics_witness :
    execWF [ExecOp.copy, ExecOp.drop, ExecOp.drop] = true ∧
      ((runExec [ExecOp.copy, ExecOp.drop, ExecOp.drop]).teardownRuns ≤ 1 ∧
        ((runExec [ExecOp.copy, ExecOp.drop, ExecOp.drop]).teardownRuns = 1 →
          ExecOp.unsubscribe ∈ [ExecOp.copy, ExecOp.drop, ExecOp.drop] ∨
            (runExec [ExecOp.copy, ExecOp.drop, ExecOp.drop]).copies = 0)) := by
  refine ⟨by decide, ?_⟩
  have h := claim10_shared_handle_semantics
    [ExecOp.copy, ExecOp.drop, ExecOp.drop] (by decide)
  exact ⟨h.2.1, h.2.2⟩

/-- **C3 (code bug).** On a `Subject` that has already completed, the code's
`subscribe` merely appends the new Subscriber to the manager's list; the new
Subscriber is *not* driven to the terminal state, and a later `next(5)` *is*
delivered to it.  Evaluated at the failing input
`complete(); subscribe(O); next(5)`: the new Observer's trace is
`[onNext 5]` — it received a value emitted after the Subject terminated and
never received any terminal callback.  This contradicts both the claim and
the code's own documentation of `Subject::complete` ("any further calls to
`next()` or `error()` will have no effect"). -/
theorem claim3_subject_no_terminal_latch :
    (getSub ((SubjectState.init (α := Nat)).complete.subscribe.next 5).states
        0).events = [Ev.onNext 5] ∧
      terminalCount
        (getSub ((SubjectState.init (α := Nat)).complete.subscribe.next
            5).states 0).events = 0 := by
  decide

theorem expectedHistory_length_le {c : Nat} (hc : c ≠ 0) (vs : List α) :
    (expectedHistory c vs).length = vs.length - (vs.length - c) := by
  simp [expectedHistory, hc]

theorem expectedHistory_snoc (c : Nat) (p : List α) (v : α) :
    expectedHistory c (p ++ [v]) = histStep c (expectedHistory c p) v := by
  by_cases hc : c = 0
  · subst hc
    simp [expectedHistory, histStep]
  · by_cases hlen : c ≤ p.length
    · have hfull : (expectedHistory c p).length = c := by
        rw [expectedHistory_length_le hc]
        omega
      have hdrop : p.length + 1 - c ≤ p.length := by omega
      rw [histStep, if_pos ⟨hc, hfull⟩]
      simp only [expectedHistory, hc, if_false, List.length_append,
        List.length_singleton]
      rw [List.drop_append_of_le_length hdrop, List.drop_drop]
      congr 2
      omega
    · have hsmall : ¬ (expectedHistory c p).length = c := by
        rw [expectedHistory_length_le hc]
        omega
      rw [histStep, if_neg (fun h => hsmall h.2)]
      have h0 : p.length - c = 0 := by omega
      have h1 : p.length + 1 - c = 0 := by omega
      simp [expectedHistory, hc, h0, h1]

/-- After feeding `vs` into a fresh ReplaySubject of capacity `c`, the
history deque holds exactly the buffered suffix of `vs`. -/
theorem ReplayState.nexts_history (c : Nat) (vs : List α) :
    ((ReplayState.init c).nexts vs).history = expectedHistory c vs ∧
      ((ReplayState.init c).nexts vs).bufferSize = c ∧
      ((ReplayState.init c).nexts vs).subj = SubjectState.init := by
  suffices H : ∀ (vs p : List α) (st : ReplayState α),
      st.history = expectedHistory c p → st.bufferSize = c →
      st.subj = SubjectState.init →
      (st.nexts vs).history = expectedHistory c (p ++ vs) ∧
        (st.nexts vs).bufferSize = c ∧ (st.nexts vs).subj = SubjectState.init by
    simpa using H vs [] (ReplayState.init c) (by simp [ReplayState.init,
      expectedHistory]) rfl rfl
  intro vs
  induction vs with
  | nil => intro p st h1 h2 h3; simpa [ReplayState.nexts] using ⟨h1, h2, h3⟩
  | cons v rest ih =>
      intro p st h1 h2 h3
      have hstep : (st.next v).history = expectedHistory c (p ++ [v]) := by
        rw [ReplayState.next, expectedHistory_snoc, h1, h2]
      have hsub : (st.next v).subj = SubjectState.init := by
        rw [ReplayState.next]
        simp only [h3]
        rfl
      have := ih (p ++ [v]) (st.next v) hstep (by rw [ReplayState.next]; exact h2)
        hsub
      simpa [ReplayState.nexts, List.append_assoc] using this

/-- A pure stream of `onNext` events contains no terminal. -/
theorem terminalCount_map_onNext (l : List α) :
    terminalCount (l.map Ev.onNext) = 0 := by
  induction l with
  | nil => rfl
  | cons v rest ih =>
      simp only [List.map, terminalCount, List.filter, Ev.isTerminal]
      exact ih

/-- Replaying a list of values into an active Subscriber delivers all of
them, in order. -/
theorem SubState.foldl_next_events (h : List α) :
    (h.foldl (fun (s : SubState α) v => s.next v) SubState.init) =
      ⟨false, h.map Ev.onNext⟩ := by
  suffices H : ∀ (h : List α) (es : List (Ev α)),
      (h.foldl (fun (s : SubState α) v => s.next v) ⟨false, es⟩) =
        ⟨false, es ++ h.map Ev.onNext⟩ by
    simpa using H h []
  intro h
  induction h with
  | nil => intro es; simp
  | cons v rest ih =>
      intro es
      have hstep : (SubState.next v ⟨false, es⟩ : SubState α) =
          ⟨false, es ++ [Ev.onNext v]⟩ := by
        simp [SubState.next]
      simp only [List.foldl, hstep, ih]
      simp

/-- **C4 (amended).** A subscriber arriving at a `ReplaySubject` after
values `vs` and a `complete()` receives exactly the buffered suffix of `vs`
(all of `vs` when the capacity is 0/unbounded, else the last `bufferSize`
values), in order — and **no terminal callback**: the terminal is not
remembered by the code, so nothing follows the replayed buffer. -/
theorem claim4_replay_after_terminal_amended (c : Nat) (vs : List Nat) :
    (getSub (((ReplayState.init c).nexts vs).complete.subscribe.subj.states)
        0).events = (expectedHistory c vs).map Ev.onNext ∧
      terminalCount
        (getSub
          (((ReplayState.init c).nexts vs).complete.subscribe.subj.states)
          0).events = 0 := by
  obtain ⟨hh, hb, hs⟩ := ReplayState.nexts_history (α := Nat) c vs
  set st := (ReplayState.init (α := Nat) c).nexts vs with hst
  have hcsub : st.complete.subj = SubjectState.init := by
    rw [ReplayState.complete, hs]
    rfl
  have hchist : st.complete.history = expectedHistory c vs := hh
  rw [ReplayState.subscribe]
  simp only [hcsub, hchist, SubState.foldl_next_events]
  refine ⟨rfl, ?_⟩
  show terminalCount
      (getSub (SubjectState.init.states ++
        [(⟨false, (expectedHistory c vs).map Ev.onNext⟩ : SubState Nat)]) 0).events = 0
  have : (getSub (SubjectState.init.states ++
      [(⟨false, (expectedHistory c vs).map Ev.onNext⟩ : SubState Nat)]) 0).events
      = (expectedHistory c vs).map Ev.onNext := rfl
  rw [this, terminalCount_map_onNext]

/-- **C4, counterexample to the claim as stated.**  `ReplaySubject` (capacity
0), `next(1)`, `complete()`, then a new `subscribe`: the late subscriber's
trace is `[onNext 1]` — the replay buffer arrives, but the "remembered
terminal callback" the claim promises never does (`createOnSubscribe` only
replays `history` and the terminal latch does not exist). -/
theorem claim4_counterexample :
    (getSub ((((ReplayState.init (α := Nat) 0).next 1).complete).subscribe
        |>.subj.states) 0).events = [Ev.onNext 1] ∧
      ¬ (Ev.onComplete ∈
          (getSub ((((ReplayState.init (α := Nat) 0).next 1).complete)
            |>.subscribe.subj.states) 0).events) := by
  decide

/-- Once the Subscriber is inactive the rest of the loop delivers nothing,
but the producer still issues one `next` call per element. -/
theorem fromStep_foldl_inactive (react : α → Bool) (vs : List α) :
    ∀ (es : List (Ev α)) (k : Nat),
      (vs.foldl (fromStep react) (⟨true, es⟩, k)) = (⟨true, es⟩, k + vs.length) := by
  induction vs with
  | nil => intro es k; simp
  | cons v rest ih =>
      intro es k
      have hstep : fromStep react (⟨true, es⟩, k) v = (⟨true, es⟩, k + 1) := by
        simp [fromStep, SubState.next]
      rw [List.foldl_cons, hstep, ih]
      simp only [List.length_cons]
      congr 1
      omega

/-- Main loop characterisation from an active Subscriber. -/
theorem fromStep_foldl_active (react : α → Bool) (vs : List α) :
    ∀ (es : List (Ev α)) (k : Nat),
      (vs.foldl (fromStep react) (⟨false, es⟩, k)) =
        (⟨vs.any react, es ++ (deliveredUpTo react vs).map Ev.onNext⟩,
          k + vs.length) := by
  induction vs with
  | nil => intro es k; simp [deliveredUpTo]
  | cons v rest ih =>
      intro es k
      by_cases hr : react v = true
      · have hstep : fromStep react (⟨false, es⟩, k) v =
            (⟨true, es ++ [Ev.onNext v]⟩, k + 1) := by
          simp [fromStep, SubState.next, SubState.unsubscribe, hr]
        rw [List.foldl_cons, hstep, fromStep_foldl_inactive]
        simp only [List.any_cons, hr, Bool.true_or, deliveredUpTo, if_pos hr,
          List.length_cons]
        refine congrArg₂ Prod.mk (congrArg _ ?_) (by omega)
        simp
      · have hstep : fromStep react (⟨false, es⟩, k) v =
            (⟨false, es ++ [Ev.onNext v]⟩, k + 1) := by
          simp [fromStep, SubState.next, hr]
        rw [List.foldl_cons, hstep, ih]
        simp only [List.any_cons, hr, Bool.false_or, deliveredUpTo, if_neg hr,
          List.length_cons]
        refine congrArg₂ Prod.mk (congrArg _ ?_) (by omega)
        simp

/-- **C9 (amended).** `Observable::from(vs)` delivers the elements of `vs`
in order and then `onComplete` when the Subscriber stays active; if the
consumer unsubscribes from inside `on_next`, delivery stops (the remaining
elements and the completion never reach the Observer) — but the *producer
loop does not stop*: it still issues one `Subscriber::next` call per element
of `vs` (each a no-op on the latched Subscriber), `vs.length` calls in
total. -/
theorem claim9_from_amended (vs : List α) (react : α → Bool) :
    (fromRun vs react).2 = vs.length ∧
      (fromRun vs react).1.events =
        (deliveredUpTo react vs).map Ev.onNext ++
          (if vs.any react then [] else [Ev.onComplete]) := by
  simp only [fromRun, SubState.init]
  rw [fromStep_foldl_active]
  refine ⟨by simp, ?_⟩
  by_cases ha : vs.any react = true
  · simp [ha, SubState.complete]
  · have ha' : vs.any react = false := by simpa using ha
    simp [ha', SubState.complete]

/-- **C9, counterexample to the claim as stated.**  `from([1, 2])` with a
consumer that unsubscribes inside `on_next(1)`: the claim says no `next`
call is issued by the producer for the remaining element `2`, i.e. exactly
1 producer call; the code's loop has no inactivity check and issues 2. -/
theorem claim9_counterexample :
    (fromRun ([1, 2] : List Nat) (fun v => v == 1)).2 = 2 ∧
      ¬ (fromRun ([1, 2] : List Nat) (fun v => v == 1)).2 = 1 := by
  decide

/-! ### Generic list facts used by the operator invariants -/

theorem all_id_false_of_getD {l : List Bool} {i : Nat} (hi : i < l.length)
    (h : l.getD i true = false) : l.all id = false := by
  cases hall : l.all id with
  | false => rfl
  | true =>
      exfalso
      have hmem : l[i] ∈ l := List.getElem_mem hi
      have hx := List.all_eq_true.mp hall _ hmem
      rw [List.getD_eq_getElem l true hi] at h
      rw [h] at hx
      exact absurd hx (by decide)

theorem allSome_set {l : List (Option α)} (h : allSome l = true)
    (i : Nat) (v : α) : allSome (l.set i (some v)) = true := by
  apply List.all_eq_true.mpr
  intro x hx
  rcases List.mem_or_eq_of_mem_set hx with hmem | rfl
  · exact List.all_eq_true.mp h _ hmem
  · rfl

theorem filter_isNext_append_onComplete (es : List (Ev α)) :
    (es ++ [Ev.onComplete]).filter Ev.isNext = es.filter Ev.isNext := by
  rw [List.filter_append]
  simp [Ev.isNext]

/-! ### C5: `combineLatest` refines its specification -/

theorem SubState.next_active {s : SubState α} (h : s.inactive = false)
    (v : α) : s.next v = ⟨false, s.events ++ [Ev.onNext v]⟩ := by
  simp [SubState.next, h]

theorem SubState.complete_active {s : SubState α} (h : s.inactive = false) :
    s.complete = ⟨true, s.events ++ [Ev.onComplete]⟩ := by
  simp [SubState.complete, h]

theorem SubState.error_active {s : SubState α} (h : s.inactive = false)
    (e : Nat) : s.error e = ⟨true, s.events ++ [Ev.onError e]⟩ := by
  simp [SubState.error, h]

theorem CLState_step_next {s : CLState α} {i : Nat} (v : α)
    (h : s.ups.getD i true = false) :
    s.step (i, .next v) =
      { s with
          slots := s.slots.set i (some v),
          down := if allSome (s.slots.set i (some v)) then
                    s.down.next (currentTuple (s.slots.set i (some v)))
                  else s.down } := by
  have h' : s.ups[i]?.getD true = false := by
    rw [← List.getD_eq_getElem?_getD]; exact h
  simp [CLState.step, h']

theorem CLState_step_complete {s : CLState α} {i : Nat}
    (h : s.ups.getD i true = false) :
    s.step (i, .complete) =
      { s with
          ups := s.ups.set i true,
          flags := s.flags.set i true,
          down := if (s.flags.set i true).all id then s.down.complete
                  else s.down } := by
  have h' : s.ups[i]?.getD true = false := by
    rw [← List.getD_eq_getElem?_getD]; exact h
  simp [CLState.step, h']

theorem CLState_step_error {s : CLState α} {i : Nat} (e : Nat)
    (h : s.ups.getD i true = false) :
    s.step (i, .error e) =
      { s with ups := s.ups.set i true, down := s.down.error e } := by
  have h' : s.ups[i]?.getD true = false := by
    rw [← List.getD_eq_getElem?_getD]; exact h
  simp [CLState.step, h']

theorem CLSpec_step_next (t : CLSpec α) (i : Nat) (v : α) :
    t.step (i, .next v) =
      { t with
          latest := t.latest.set i (some v),
          out := if allSome (t.latest.set i (some v))
                 then t.out ++ [Ev.onNext (currentTuple (t.latest.set i (some v)))]
                 else t.out } := rfl

theorem CLSpec_step_complete (t : CLSpec α) (i : Nat) :
    t.step (i, .complete) =
      { t with
          compl := t.compl.set i true,
          out := if (t.compl.set i true).all id then t.out ++ [Ev.onComplete]
                 else t.out } := rfl

theorem CLRel_init (n : Nat) :
    CLRel n (List.replicate (n + 1) false) (CLState.init (α := α) n)
      (CLSpec.init n) := by
  have hall : (List.replicate (n + 1) false).all id = false := by
    rw [List.replicate_succ]; simp
  refine ⟨rfl, rfl, rfl, rfl, rfl, hall.symm ▸ rfl, by simp, ?_, fun _ => rfl⟩
  simp [CLSpec.init, hall]

theorem CLRel_step {n : Nat} {c : List Bool} {s : CLState α} {t : CLSpec α}
    (h : CLRel n c s t) {i : Nat} {ev : InEv α}
    (hi : i < n + 1) (hterm : c.getD i true = false)
    (herr : ev.isErr = false) :
    CLRel n (if ev.isTerminal then c.set i true else c)
      (s.step (i, ev)) (t.step (i, ev)) := by
  obtain ⟨hsl, hfl, hup, hcp, hev, hin, hlen, hmem, hready⟩ := h
  have hcall : c.all id = false := all_id_false_of_getD (hlen ▸ hi) hterm
  have hups : s.ups.getD i true = false := by rw [hup]; exact hterm
  have hdin : s.down.inactive = false := by rw [hin]; exact hcall
  cases ev with
  | next v =>
      show CLRel n c _ _
      rw [CLState_step_next v hups, CLSpec_step_next]
      have hslset : s.slots.set i (some v) = t.latest.set i (some v) := by
        rw [hsl]
      rw [hslset]
      by_cases hall2 : allSome (t.latest.set i (some v)) = true
      · rw [if_pos hall2, if_pos hall2]
        refine ⟨rfl, hfl, hup, hcp, ?_, ?_, hlen, ?_, ?_⟩
        · rw [SubState.next_active hdin]
          simp only [hev]
        · rw [SubState.next_active hdin]
          exact hcall.symm
        · simp only [List.mem_append]
          constructor
          · rintro (hm | hm)
            · exact hmem.mp hm
            · simp at hm
          · intro hx
            exact Or.inl (hmem.mpr hx)
        · intro hfalse
          rw [hall2] at hfalse
          cases hfalse
      · rw [if_neg hall2, if_neg hall2]
        refine ⟨rfl, hfl, hup, hcp, hev, hin, hlen, hmem, ?_⟩
        intro _
        apply hready
        cases hx : allSome s.slots with
        | false => rfl
        | true =>
            exfalso
            exact hall2 (hslset ▸ allSome_set hx i v)
  | complete =>
      show CLRel n (c.set i true) _ _
      rw [CLState_step_complete hups, CLSpec_step_complete]
      have hflset : s.flags.set i true = c.set i true := by rw [hfl]
      have hcpset : t.compl.set i true = c.set i true := by rw [hcp]
      rw [hflset, hcpset]
      have hupset : s.ups.set i true = c.set i true := by rw [hup]
      by_cases hall2 : (c.set i true).all id = true
      · rw [if_pos hall2, if_pos hall2]
        refine ⟨hsl, rfl, hupset, rfl, ?_, ?_, by simp [hlen], ?_, ?_⟩
        · rw [SubState.complete_active hdin]
          simp only [hev]
        · rw [SubState.complete_active hdin]
          exact hall2.symm
        · simp [hall2]
        · intro hfalse
          rw [SubState.complete_active hdin]
          show (s.down.events ++ [Ev.onComplete]).filter Ev.isNext = []
          rw [filter_isNext_append_onComplete]
          exact hready hfalse
      · have hall2' : (c.set i true).all id = false := by
          cases hx : (c.set i true).all id with
          | false => rfl
          | true => exact absurd hx hall2
        rw [if_neg hall2, if_neg hall2]
        refine ⟨hsl, rfl, hupset, rfl, hev, ?_, by simp [hlen], ?_, ?_⟩
        · rw [hin, hcall, hall2']
        · rw [hall2']
          constructor
          · intro hm
            exact absurd (hmem.mp hm) (by rw [hcall]; simp)
          · intro hx
            cases hx
        · intro hfalse
          exact hready hfalse
  | error e => simp [InEv.isErr] at herr

/-- Fold the coupling over a well-formed, error-free trace. -/
theorem CLRel_run {n : Nat} (tr : List (Nat × InEv α)) :
    ∀ (c : List Bool) (s : CLState α) (t : CLSpec α),
      wfFrom n false c tr = true → CLRel n c s t →
      CLRel n
        (tr.foldl (fun c p => if p.2.isTerminal then c.set p.1 true else c) c)
        (tr.foldl CLState.step s) (tr.foldl CLSpec.step t) := by
  induction tr with
  | nil => intro c s t _ h; exact h
  | cons p rest ih =>
      intro c s t hwf h
      obtain ⟨i, ev⟩ := p
      have hwf' := hwf
      simp only [wfFrom, Bool.and_eq_true, Bool.false_or,
        decide_eq_true_eq, Bool.not_eq_true'] at hwf'
      obtain ⟨⟨⟨hi, hterm⟩, herr⟩, hrest⟩ := hwf'
      exact ih _ _ _ hrest (CLRel_step h hi hterm (by simpa using herr))

/-- **C5.** For every number of inputs and every well-formed error-free
interleaving of their emissions, the embedded `combineLatest` produces
downstream exactly the event sequence that the spec's slot/flag description
produces: no tuple is emitted while some slot is empty, each processed
`on_next` updates its slot and emits the tuple of current latest values
exactly when all slots are occupied, and the downstream `onComplete` is
delivered precisely when every input (source included) has completed. -/
theorem claim5_combineLatest_behaviour (n : Nat) (tr : List (Nat × InEv α))
    (hwf : wfTrace n false tr = true) :
    (clRun n tr).down.events = (clSpecRun n tr).out ∧
      (allSome (clRun n tr).slots = false →
        (clRun n tr).down.events.filter Ev.isNext = []) ∧
      (Ev.onComplete ∈ (clRun n tr).down.events ↔
        (doneAfter n tr).all id = true) := by
  have h := CLRel_run (n := n) tr (List.replicate (n + 1) false)
    (CLState.init n) (CLSpec.init n) hwf (CLRel_init n)
  obtain ⟨_, _, _, _, hev, _, _, hmem, hready⟩ := h
  refine ⟨hev, hready, ?_⟩
  rw [show (clRun n tr).down.events =
      (tr.foldl CLState.step (CLState.init (α := α) n)).down.events from rfl]
  rw [show (doneAfter n tr : List Bool) =
      (tr.foldl (fun c p => if p.2.isTerminal then c.set p.1 true else c)
        (List.replicate (n + 1) false)) from rfl]
  rw [hev]
  exact hmem

/-- Witness for C5 at `n = 1` with the trace of scenario S4's prefix:
source emits 1 (no tuple yet), other emits 10 (tuple (1,10)), source emits
2 (tuple (2,10)), then both complete (downstream completes at the second
completion). -/
theorem claim5_combineLatest_behaviour_witness :
    wfTrace 1 false
        [(0, InEv.next 1), (1, InEv.next 10), (0, InEv.next 2),
          (0, InEv.complete), (1, InEv.complete)] = true ∧
      ((clRun 1 [(0, InEv.next 1), (1, InEv.next 10), (0, InEv.next 2),
          (0, InEv.complete), (1, InEv.complete)]).down.events =
        (clSpecRun 1 [(0, InEv.next 1), (1, InEv.next 10), (0, InEv.next 2),
          (0, InEv.complete), (1, InEv.complete)]).out ∧
      (allSome (clRun 1 [(0, InEv.next 1), (1, InEv.next 10), (0, InEv.next 2),
          (0, InEv.complete), (1, InEv.complete)]).slots = false →
        (clRun 1 [(0, InEv.next 1), (1, InEv.next 10), (0, InEv.next 2),
          (0, InEv.complete), (1, InEv.complete)]).down.events.filter
            Ev.isNext = []) ∧
      (Ev.onComplete ∈ (clRun 1 [(0, InEv.next 1), (1, InEv.next 10),
          (0, InEv.next 2), (0, InEv.complete),
          (1, InEv.complete)]).down.events ↔
        (doneAfter 1 [(0, InEv.next (1 : Nat)), (1, InEv.next 10),
          (0, InEv.next 2), (0, InEv.complete),
          (1, InEv.complete)]).all id = true)) := by
  refine ⟨by decide, ?_⟩
  exact claim5_combineLatest_behaviour 1
    [(0, InEv.next 1), (1, InEv.next 10), (0, InEv.next 2),
      (0, InEv.complete), (1, InEv.complete)] (by decide)

/-! ### C6: `withLatestFrom` refines its specification -/

theorem getD_set_self {l : List α} {i : Nat} (hi : i < l.length) (a d : α) :
    (l.set i a).getD i d = a := by
  rw [List.getD_eq_getElem?_getD, List.getElem?_set_self hi]
  rfl

theorem getD_set_ne {l : List α} {i j : Nat} (hij : i ≠ j) (a d : α) :
    (l.set i a).getD j d = l.getD j d := by
  rw [List.getD_eq_getElem?_getD, List.getElem?_set_ne hij,
    ← List.getD_eq_getElem?_getD]

theorem WLState.step_src_next {s : WLState α} (v : α)
    (h : s.ups.getD 0 true = false) :
    s.step (0, .next v) =
      if allSome s.slots then
        { s with down := s.down.next (v :: currentTuple s.slots) }
      else s := by
  have h' : s.ups[0]?.getD true = false := by
    rw [← List.getD_eq_getElem?_getD]; exact h
  simp [WLState.step, h']

theorem WLState.step_src_complete {s : WLState α}
    (h : s.ups.getD 0 true = false) :
    s.step (0, .complete) =
      { s with ups := s.ups.set 0 true, down := s.down.complete } := by
  have h' : s.ups[0]?.getD true = false := by
    rw [← List.getD_eq_getElem?_getD]; exact h
  simp [WLState.step, h']

theorem WLState.step_oth_next {s : WLState α} {j : Nat} (v : α)
    (h : s.ups.getD (j + 1) true = false) :
    s.step (j + 1, .next v) = { s with slots := s.slots.set j (some v) } := by
  have h' : s.ups[j + 1]?.getD true = false := by
    rw [← List.getD_eq_getElem?_getD]; exact h
  simp [WLState.step, h']

theorem WLState.step_oth_complete {s : WLState α} {j : Nat}
    (h : s.ups.getD (j + 1) true = false) :
    s.step (j + 1, .complete) =
      { s with ups := s.ups.set (j + 1) true } := by
  have h' : s.ups[j + 1]?.getD true = false := by
    rw [← List.getD_eq_getElem?_getD]; exact h
  simp [WLState.step, h']

/-- An other's `on_next` never touches the downstream Subscriber. -/
theorem WLState.step_oth_next_down (s : WLState α) (j : Nat) (v : α) :
    (s.step (j + 1, .next v)).down = s.down := by
  simp only [WLState.step]
  split <;> rfl

/-- An other's `on_complete` never touches the downstream Subscriber. -/
theorem WLState.step_oth_complete_down (s : WLState α) (j : Nat) :
    (s.step (j + 1, .complete)).down = s.down := by
  simp only [WLState.step]
  split <;> rfl

theorem WLRel_init (n : Nat) :
    WLRel n (List.replicate (n + 1) false) (WLState.init (α := α) n)
      (WLSpec.init n) := by
  refine ⟨rfl, rfl, rfl, ?_, by simp⟩
  rw [List.replicate_succ]
  rfl

theorem WLRel_step {n : Nat} {c : List Bool} {s : WLState α} {t : WLSpec α}
    (h : WLRel n c s t) {i : Nat} {ev : InEv α}
    (hi : i < n + 1) (hterm : c.getD i true = false)
    (herr : ev.isErr = false) :
    WLRel n (if ev.isTerminal then c.set i true else c)
      (s.step (i, ev)) (t.step (i, ev)) := by
  obtain ⟨hsl, hup, hev, hin, hlen⟩ := h
  have hups : s.ups.getD i true = false := by rw [hup]; exact hterm
  cases i with
  | zero =>
      have hdin : s.down.inactive = false := by rw [hin]; exact hterm
      cases ev with
      | next v =>
          show WLRel n c _ _
          rw [WLState.step_src_next v hups,
            show t.step (0, InEv.next v) =
              { t with out := if allSome t.latest
                  then t.out ++ [Ev.onNext (v :: currentTuple t.latest)]
                  else t.out } from rfl]
          rw [hsl]
          by_cases hall : allSome t.latest = true
          · rw [if_pos hall, if_pos hall]
            refine ⟨rfl, hup, ?_, ?_, hlen⟩
            · rw [SubState.next_active hdin]
              simp only [hev]
            · rw [SubState.next_active hdin]
              exact hterm.symm
          · rw [if_neg hall, if_neg hall]
            exact ⟨hsl, hup, hev, hin, hlen⟩
      | complete =>
          show WLRel n (c.set 0 true) _ _
          rw [WLState.step_src_complete hups,
            show t.step (0, InEv.complete) =
              { t with out := t.out ++ [Ev.onComplete] } from rfl]
          refine ⟨hsl, by rw [hup], ?_, ?_, by simp [hlen]⟩
          · rw [SubState.complete_active hdin]
            simp only [hev]
          · rw [SubState.complete_active hdin]
            rw [getD_set_self (by omega) true true]
      | error e => simp [InEv.isErr] at herr
  | succ j =>
      cases ev with
      | next v =>
          show WLRel n c _ _
          rw [WLState.step_oth_next v hups,
            show t.step (j + 1, InEv.next v) =
              { t with latest := t.latest.set j (some v) } from rfl]
          exact ⟨by rw [hsl], hup, hev, hin, hlen⟩
      | complete =>
          show WLRel n (c.set (j + 1) true) _ _
          rw [WLState.step_oth_complete hups,
            show t.step (j + 1, InEv.complete) = t from rfl]
          refine ⟨hsl, by rw [hup], hev, ?_, by simp [hlen]⟩
          rw [hin, getD_set_ne (by omega) true true]
      | error e => simp [InEv.isErr] at herr

/-- Fold the coupling over a well-formed, error-free trace. -/
theorem WLRel_run {n : Nat} (tr : List (Nat × InEv α)) :
    ∀ (c : List Bool) (s : WLState α) (t : WLSpec α),
      wfFrom n false c tr = true → WLRel n c s t →
      WLRel n
        (tr.foldl (fun c p => if p.2.isTerminal then c.set p.1 true else c) c)
        (tr.foldl WLState.step s) (tr.foldl WLSpec.step t) := by
  induction tr with
  | nil => intro c s t _ h; exact h
  | cons p rest ih =>
      intro c s t hwf h
      obtain ⟨i, ev⟩ := p
      have hwf' := hwf
      simp only [wfFrom, Bool.and_eq_true, Bool.false_or,
        decide_eq_true_eq, Bool.not_eq_true'] at hwf'
      obtain ⟨⟨⟨hi, hterm⟩, herr⟩, hrest⟩ := hwf'
      exact ih _ _ _ hrest (WLRel_step h hi hterm (by simpa using herr))

/-- **C6.** For every number of other inputs and every well-formed
error-free interleaving, the embedded `withLatestFrom` produces downstream
exactly the event sequence of the spec's description: one tuple
`(v, other₁, …)` per source `on_next(v)` arriving while every other slot is
occupied (in source order, with each slot holding that other's most recent
value), no emission otherwise; moreover an other's `on_next` or
`on_complete` never touches the downstream Subscriber (others' completions
are ignored), and the downstream completes exactly on the source's
completion. -/
theorem claim6_withLatestFrom_behaviour (n : Nat) (tr : List (Nat × InEv α))
    (hwf : wfTrace n false tr = true) :
    (wlRun n tr).down.events = (wlSpecRun n tr).out ∧
      (∀ (s : WLState α) (j : Nat) (v : α),
        (s.step (j + 1, InEv.next v)).down = s.down) ∧
      (∀ (s : WLState α) (j : Nat),
        (s.step (j + 1, InEv.complete)).down = s.down) := by
  have h := WLRel_run (n := n) tr (List.replicate (n + 1) false)
    (WLState.init n) (WLSpec.init n) hwf (WLRel_init n)
  exact ⟨h.2.2.1, fun s j v => WLState.step_oth_next_down s j v,
    fun s j => WLState.step_oth_complete_down s j⟩

/-- Witness for C6 at `n = 1` with scenario S5's trace: source 1 dropped,
other 10, source 2 → (2,10), other 20, source 3 → (3,20), other completes
(ignored), source completes (downstream completes). -/
theorem claim6_withLatestFrom_behaviour_witness :
    wfTrace 1 false
        [(0, InEv.next 1), (1, InEv.next 10), (0, InEv.next 2),
          (1, InEv.next 20), (0, InEv.next 3), (1, InEv.complete),
          (0, InEv.complete)] = true ∧
      (wlRun 1 [(0, InEv.next 1), (1, InEv.next 10), (0, InEv.next 2),
          (1, InEv.next 20), (0, InEv.next 3), (1, InEv.complete),
          (0, InEv.complete)]).down.events =
        (wlSpecRun 1 [(0, InEv.next (1 : Nat)), (1, InEv.next 10),
          (0, InEv.next 2), (1, InEv.next 20), (0, InEv.next 3),
          (1, InEv.complete), (0, InEv.complete)]).out := by
  refine ⟨by decide, ?_⟩
  exact (claim6_withLatestFrom_behaviour 1
    [(0, InEv.next 1), (1, InEv.next 10), (0, InEv.next 2),
      (1, InEv.next 20), (0, InEv.next 3), (1, InEv.complete),
      (0, InEv.complete)] (by decide)).1

theorem all_id_iff_count_false {l : List Bool} :
    l.all id = true ↔ l.count false = 0 := by
  rw [List.count_eq_zero, List.all_eq_true]
  constructor
  · intro h hmem
    have hx := h false hmem
    simp at hx
  · intro h b hb
    cases b with
    | true => rfl
    | false => exact absurd hb h

theorem count_false_set_true :
    ∀ (l : List Bool) (i : Nat), i < l.length → l.getD i true = false →
      (l.set i true).count false + 1 = l.count false := by
  intro l
  induction l with
  | nil => intro i hi _; simp at hi
  | cons b rest ih =>
      intro i hi hg
      cases i with
      | zero =>
          have hb : b = false := hg
          subst hb
          simp [List.count_cons]
      | succ j =>
          have hg' : rest.getD j true = false := hg
          have hi' : j < rest.length := by simpa using hi
          have hrec := ih j hi' hg'
          simp only [List.set, List.count_cons]
          omega

theorem MRel_init (n : Nat) :
    MRel n (List.replicate (n + 1) false) [] (MergeState.init (α := α) n) := by
  have hall : (List.replicate (n + 1) false).all id = false := by
    rw [List.replicate_succ]; simp
  have hcount : (List.replicate (n + 1) false).count false = n + 1 := by
    simp [List.count_replicate]
  exact ⟨rfl, hcount.symm, by rw [hall]; rfl, by rw [hall]; rfl, by simp⟩

theorem MergeState_step_next {s : MergeState α} {i : Nat} (v : α)
    (h : s.ups.getD i true = false) :
    s.step (i, .next v) = { s with down := s.down.next v } := by
  have h' : s.ups[i]?.getD true = false := by
    rw [← List.getD_eq_getElem?_getD]; exact h
  simp [MergeState.step, h']

theorem MergeState_step_complete {s : MergeState α} {i : Nat}
    (h : s.ups.getD i true = false) :
    s.step (i, .complete) =
      { s with
          ups := s.ups.set i true,
          counter := s.counter - 1,
          down := if s.counter - 1 = 0 then s.down.complete
                  else s.down } := by
  have h' : s.ups[i]?.getD true = false := by
    rw [← List.getD_eq_getElem?_getD]; exact h
  simp [MergeState.step, h']

theorem MRel_step {n : Nat} {c : List Bool} {xs : List α}
    {s : MergeState α} (h : MRel n c xs s) {i : Nat} {ev : InEv α}
    (hi : i < n + 1) (hterm : c.getD i true = false)
    (herr : ev.isErr = false) :
    MRel n (if ev.isTerminal then c.set i true else c)
      (xs ++ trNexts [(i, ev)]) (s.step (i, ev)) := by
  obtain ⟨hup, hcnt, hin, hev, hlen⟩ := h
  have hcall : c.all id = false := all_id_false_of_getD (hlen ▸ hi) hterm
  have hups : s.ups.getD i true = false := by rw [hup]; exact hterm
  have hdin : s.down.inactive = false := by rw [hin]; exact hcall
  have hcount1 : 1 ≤ c.count false := by
    have := count_false_set_true c i (hlen ▸ hi) hterm
    omega
  cases ev with
  | next v =>
      show MRel n c (xs ++ [v]) _
      rw [MergeState_step_next v hups]
      refine ⟨hup, hcnt, ?_, ?_, hlen⟩
      · rw [SubState.next_active hdin]
        exact hcall.symm ▸ rfl
      · rw [SubState.next_active hdin]
        simp only [hev, hcall, if_neg Bool.false_ne_true]
        simp [hcall]
  | complete =>
      show MRel n (c.set i true) (xs ++ []) _
      rw [MergeState_step_complete hups]
      have hset := count_false_set_true c i (hlen ▸ hi) hterm
      have hcnt' : s.counter - 1 = (c.set i true).count false := by omega
      by_cases hz : s.counter - 1 = 0
      · have hallset : (c.set i true).all id = true := by
          rw [all_id_iff_count_false]
          omega
        rw [if_pos hz]
        refine ⟨by rw [hup], hcnt', ?_, ?_, by simp [hlen]⟩
        · rw [SubState.complete_active hdin, hallset]
        · rw [SubState.complete_active hdin, hallset]
          simp only [hev, hcall, if_neg Bool.false_ne_true, if_pos rfl]
          simp
      · have hallset : (c.set i true).all id = false := by
          cases hx : (c.set i true).all id with
          | false => rfl
          | true =>
              rw [all_id_iff_count_false] at hx
              omega
        rw [if_neg hz]
        refine ⟨by rw [hup], hcnt', ?_, ?_, by simp [hlen]⟩
        · rw [hin, hcall, hallset]
        · rw [hev, hallset, hcall]
          simp
  | error e => simp [InEv.isErr] at herr

/-- Fold the merge coupling over a well-formed, error-free trace. -/
theorem MRel_run {n : Nat} (tr : List (Nat × InEv α)) :
    ∀ (c : List Bool) (xs : List α) (s : MergeState α),
      wfFrom n false c tr = true → MRel n c xs s →
      MRel n
        (tr.foldl (fun c p => if p.2.isTerminal then c.set p.1 true else c) c)
        (xs ++ trNexts tr) (tr.foldl MergeState.step s) := by
  induction tr with
  | nil => intro c xs s _ h; simpa [trNexts] using h
  | cons p rest ih =>
      intro c xs s hwf h
      obtain ⟨i, ev⟩ := p
      have hwf' := hwf
      simp only [wfFrom, Bool.and_eq_true, Bool.false_or,
        decide_eq_true_eq, Bool.not_eq_true'] at hwf'
      obtain ⟨⟨⟨hi, hterm⟩, herr⟩, hrest⟩ := hwf'
      have hstep := MRel_step h hi hterm (by simpa using herr)
      have := ih _ _ _ hrest hstep
      cases ev with
      | next v => simpa [trNexts, List.append_assoc] using this
      | complete => simpa [trNexts] using this
      | error e => simp [InEv.isErr] at herr

/-- **C7.** The modelled `merge` forwards every input's `on_next`
immediately and in order: over any well-formed error-free trace the
downstream receives exactly the trace's `next` values (as `onNext` events),
followed by `onComplete` exactly when all `1 + |others|` inputs have
completed; the completion counter starts at `1 + |others|` and always
equals the number of inputs that have not yet completed. -/
theorem claim7_merge_behaviour (n : Nat) (tr : List (Nat × InEv α))
    (hwf : wfTrace n false tr = true) :
    (mergeRun n tr).down.events =
        (trNexts tr).map Ev.onNext ++
          (if (doneAfter n tr).all id then [Ev.onComplete] else []) ∧
      (MergeState.init (α := α) n).counter = n + 1 ∧
      (mergeRun n tr).counter = (doneAfter n tr).count false := by
  have h := MRel_run (n := n) tr (List.replicate (n + 1) false) []
    (MergeState.init n) hwf (MRel_init n)
  obtain ⟨_, hcnt, _, hev, _⟩ := h
  exact ⟨by simpa using hev, rfl, by simpa using hcnt⟩

/-- Witness for C7 at `n = 1`: interleave two finite streams and complete
both — the downstream sees all five values then completes. -/
theorem claim7_merge_behaviour_witness :
    wfTrace 1 false
        [(0, InEv.next 0), (1, InEv.next 1), (0, InEv.next 2),
          (0, InEv.complete), (1, InEv.next 3), (1, InEv.complete)]
        = true ∧
      (mergeRun 1 [(0, InEv.next 0), (1, InEv.next 1), (0, InEv.next 2),
          (0, InEv.complete), (1, InEv.next 3),
          (1, InEv.complete)]).down.events =
        (trNexts [(0, InEv.next (0 : Nat)), (1, InEv.next 1),
          (0, InEv.next 2), (0, InEv.complete), (1, InEv.next 3),
          (1, InEv.complete)]).map Ev.onNext ++
          (if (doneAfter 1 [(0, InEv.next (0 : Nat)), (1, InEv.next 1),
              (0, InEv.next 2), (0, InEv.complete), (1, InEv.next 3),
              (1, InEv.complete)]).all id then [Ev.onComplete] else []) := by
  refine ⟨by decide, ?_⟩
  exact (claim7_merge_behaviour 1
    [(0, InEv.next 0), (1, InEv.next 1), (0, InEv.next 2),
      (0, InEv.complete), (1, InEv.next 3), (1, InEv.complete)]
    (by decide)).1

theorem all_id_false_of_getD' {l : List Bool} {i : Nat} {d : Bool}
    (hi : i < l.length) (h : l.getD i d = false) : l.all id = false := by
  cases hall : l.all id with
  | false => rfl
  | true =>
      exfalso
      have hmem : l[i] ∈ l := List.getElem_mem hi
      have hx := List.all_eq_true.mp hall _ hmem
      rw [List.getD_eq_getElem l d hi] at h
      rw [h] at hx
      exact absurd hx (by decide)

theorem SubState.complete_inactive {s : SubState α} (h : s.inactive = true) :
    s.complete = s := by
  simp [SubState.complete, h]

theorem SubState.error_inactive {s : SubState α} (h : s.inactive = true)
    (e : Nat) : s.error e = s := by
  simp [SubState.error, h]

theorem SubState.next_inactive_eq (s : SubState α) (v : α) :
    (s.next v).inactive = s.inactive := by
  unfold SubState.next
  split <;> rfl

theorem SubState.next_filter_isError (s : SubState α) (v : α) :
    (s.next v).events.filter Ev.isError = s.events.filter Ev.isError := by
  unfold SubState.next
  split
  · rfl
  · show (s.events ++ [Ev.onNext v]).filter Ev.isError = _
    rw [List.filter_append]
    simp [Ev.isError]

theorem filter_isError_append_onComplete (es : List (Ev α)) :
    (es ++ [Ev.onComplete]).filter Ev.isError = es.filter Ev.isError := by
  rw [List.filter_append]
  simp [Ev.isError]

theorem filter_isError_append_onError (es : List (Ev α)) (e : Nat) :
    ((es ++ [Ev.onError e]).filter Ev.isError).length =
      (es.filter Ev.isError).length + 1 := by
  rw [List.filter_append]
  simp [Ev.isError]

theorem CLState_step_latched {s : CLState α} {i : Nat} {ev : InEv α}
    (h : s.ups.getD i true = true) : s.step (i, ev) = s := by
  have h' : s.ups[i]?.getD true = true := by
    rw [← List.getD_eq_getElem?_getD]; exact h
  cases ev <;> simp [CLState.step, h']

theorem WLState_step_latched {s : WLState α} {i : Nat} {ev : InEv α}
    (h : s.ups.getD i true = true) : s.step (i, ev) = s := by
  have h' : s.ups[i]?.getD true = true := by
    rw [← List.getD_eq_getElem?_getD]; exact h
  cases i with
  | zero => cases ev <;> simp [WLState.step, h']
  | succ j => cases ev <;> simp [WLState.step, h']

theorem WLState.step_src_error {s : WLState α} (e : Nat)
    (h : s.ups.getD 0 true = false) :
    s.step (0, .error e) =
      { s with ups := s.ups.set 0 true, down := s.down.error e } := by
  have h' : s.ups[0]?.getD true = false := by
    rw [← List.getD_eq_getElem?_getD]; exact h
  simp [WLState.step, h']

theorem WLState.step_oth_error {s : WLState α} {j : Nat} (e : Nat)
    (h : s.ups.getD (j + 1) true = false) :
    s.step (j + 1, .error e) =
      { s with ups := s.ups.set (j + 1) true, down := s.down.error e } := by
  have h' : s.ups[j + 1]?.getD true = false := by
    rw [← List.getD_eq_getElem?_getD]; exact h
  simp [WLState.step, h']

theorem CLState_step_down_good {s : CLState α} (hs : s.down.good)
    (p : Nat × InEv α) : (s.step p).down.good := by
  obtain ⟨i, ev⟩ := p
  by_cases h : s.ups.getD i true = true
  · rw [CLState_step_latched h]
    exact hs
  · have h' : s.ups.getD i true = false := by simpa using h
    cases ev with
    | next v =>
        rw [CLState_step_next v h']
        show SubState.good (if allSome (s.slots.set i (some v)) = true
          then s.down.next (currentTuple (s.slots.set i (some v)))
          else s.down)
        split
        · exact SubState.good_applyCall hs (SubCall.next _)
        · exact hs
    | complete =>
        rw [CLState_step_complete h']
        show SubState.good (if (s.flags.set i true).all id = true
          then s.down.complete else s.down)
        split
        · exact SubState.good_applyCall hs SubCall.complete
        · exact hs
    | error e =>
        rw [CLState_step_error e h']
        exact SubState.good_applyCall hs (SubCall.error e)

theorem clRun_down_good (n : Nat) (tr : List (Nat × InEv α)) :
    (clRun n tr).down.good := by
  suffices H : ∀ (tr : List (Nat × InEv α)) (s : CLState α),
      s.down.good → (tr.foldl CLState.step s).down.good by
    exact H tr (CLState.init n) SubState.good_init
  intro tr
  induction tr with
  | nil => intro s hs; exact hs
  | cons p rest ih => intro s hs; exact ih _ (CLState_step_down_good hs p)

theorem WLState_step_down_good {s : WLState α} (hs : s.down.good)
    (p : Nat × InEv α) : (s.step p).down.good := by
  obtain ⟨i, ev⟩ := p
  by_cases h : s.ups.getD i true = true
  · rw [WLState_step_latched h]
    exact hs
  · have h' : s.ups.getD i true = false := by simpa using h
    cases i with
    | zero =>
        cases ev with
        | next v =>
            rw [WLState.step_src_next v h']
            show SubState.good (if allSome s.slots = true
              then { s with
                down := s.down.next (v :: currentTuple s.slots) }
              else s).down
            split
            · exact SubState.good_applyCall hs (SubCall.next _)
            · exact hs
        | complete =>
            rw [WLState.step_src_complete h']
            exact SubState.good_applyCall hs SubCall.complete
        | error e =>
            rw [WLState.step_src_error e h']
            exact SubState.good_applyCall hs (SubCall.error e)
    | succ j =>
        cases ev with
        | next v =>
            rw [WLState.step_oth_next v h']
            exact hs
        | complete =>
            rw [WLState.step_oth_complete h']
            exact hs
        | error e =>
            rw [WLState.step_oth_error e h']
            exact SubState.good_applyCall hs (SubCall.error e)

theorem wlRun_down_good (n : Nat) (tr : List (Nat × InEv α)) :
    (wlRun n tr).down.good := by
  suffices H : ∀ (tr : List (Nat × InEv α)) (s : WLState α),
      s.down.good → (tr.foldl WLState.step s).down.good by
    exact H tr (WLState.init n) SubState.good_init
  intro tr
  induction tr with
  | nil => intro s hs; exact hs
  | cons p rest ih => intro s hs; exact ih _ (WLState_step_down_good hs p)

theorem clGhost_err (tr : List (Nat × InEv α)) :
    ∀ (g : List Bool × List Bool × Bool),
      (tr.foldl clGhost g).2.2 = (g.2.2 || anyErr tr) := by
  induction tr with
  | nil => intro g; simp [anyErr]
  | cons p rest ih =>
      intro g
      rw [List.foldl_cons, ih]
      simp [anyErr, clGhost, List.any_cons, Bool.or_assoc]

theorem CLERel_init (n : Nat) :
    CLERel n (List.replicate (n + 1) false) (List.replicate (n + 1) false)
      false (CLState.init (α := α) n) := by
  have hall : (List.replicate (n + 1) false).all id = false := by
    rw [List.replicate_succ]; simp
  refine ⟨rfl, rfl, by simp, by simp, ?_, by rw [hall]; rfl, rfl⟩
  intro j hj hk
  exfalso
  revert hk
  simp [List.getD_eq_getElem?_getD, List.getElem?_replicate, hj]

theorem CLERel_step {n : Nat} {c k : List Bool} {b : Bool} {s : CLState α}
    (h : CLERel n c k b s) {i : Nat} {ev : InEv α}
    (hi : i < n + 1) (hterm : c.getD i true = false) :
    CLERel n (if ev.isTerminal then c.set i true else c)
      (complStep k (i, ev)) (b || ev.isErr) (s.step (i, ev)) := by
  obtain ⟨hup, hfl, hclen, hklen, hck, hin, hcnt⟩ := h
  have hups : s.ups.getD i true = false := by rw [hup]; exact hterm
  have hki : k.getD i false = false := by
    cases hk : k.getD i false with
    | false => rfl
    | true => exact absurd (hck i hi hk) (by rw [hterm]; decide)
  have hkall : k.all id = false := all_id_false_of_getD' (hklen ▸ hi) hki
  have hinb : s.down.inactive = b := by rw [hin, hkall, Bool.false_or]
  cases ev with
  | next v =>
      show CLERel n c k (b || false) _
      rw [Bool.or_false, CLState_step_next v hups]
      refine ⟨hup, hfl, hclen, hklen, hck, ?_, ?_⟩
      · show (if allSome (s.slots.set i (some v)) = true
            then s.down.next (currentTuple (s.slots.set i (some v)))
            else s.down).inactive = _
        split
        · rw [SubState.next_inactive_eq]; exact hin
        · exact hin
      · show ((if allSome (s.slots.set i (some v)) = true
            then s.down.next (currentTuple (s.slots.set i (some v)))
            else s.down).events.filter Ev.isError).length = _
        split
        · rw [SubState.next_filter_isError]; exact hcnt
        · exact hcnt
  | complete =>
      show CLERel n (c.set i true) (k.set i true) (b || false) _
      rw [Bool.or_false, CLState_step_complete hups]
      have hk5 : ∀ j, j < n + 1 → (k.set i true).getD j false = true →
          (c.set i true).getD j true = true := by
        intro j hj hkj
        by_cases hij : i = j
        · subst hij
          exact getD_set_self (hclen ▸ hi) true true
        · rw [getD_set_ne hij true true]
          rw [getD_set_ne hij true false] at hkj
          exact hck j hj hkj
      refine ⟨by rw [hup], by rw [hfl], by simp [hclen], by simp [hklen],
        hk5, ?_, ?_⟩
      · show (if (s.flags.set i true).all id = true
            then s.down.complete else s.down).inactive = _
        rw [hfl]
        by_cases hall2 : (k.set i true).all id = true
        · rw [if_pos hall2, hall2, Bool.true_or]
          cases hb : b with
          | true =>
              rw [SubState.complete_inactive (by rw [hinb, hb])]
              rw [hinb, hb]
          | false =>
              rw [SubState.complete_active (by rw [hinb, hb])]
        · rw [if_neg hall2]
          have : (k.set i true).all id = false := by
            cases hx : (k.set i true).all id with
            | false => rfl
            | true => exact absurd hx hall2
          rw [this, hin, hkall]
      · show ((if (s.flags.set i true).all id = true
            then s.down.complete else s.down).events.filter
              Ev.isError).length = _
        rw [hfl]
        by_cases hall2 : (k.set i true).all id = true
        · rw [if_pos hall2]
          cases hb : b with
          | true =>
              rw [SubState.complete_inactive (by rw [hinb, hb])]
              rw [hb] at hcnt
              exact hcnt
          | false =>
              rw [SubState.complete_active (by rw [hinb, hb])]
              show ((s.down.events ++ [Ev.onComplete]).filter
                Ev.isError).length = _
              rw [filter_isError_append_onComplete]
              rw [hb] at hcnt
              exact hcnt
        · rw [if_neg hall2]
          exact hcnt
  | error e =>
      show CLERel n (c.set i true) k (b || true) _
      rw [Bool.or_true, CLState_step_error e hups]
      have hc5 : ∀ j, j < n + 1 → k.getD j false = true →
          (c.set i true).getD j true = true := by
        intro j hj hkj
        by_cases hij : i = j
        · subst hij
          exact getD_set_self (hclen ▸ hi) true true
        · rw [getD_set_ne hij true true]
          exact hck j hj hkj
      refine ⟨by rw [hup], hfl, by simp [hclen], hklen, hc5, ?_, ?_⟩
      · cases hb : b with
        | true =>
            rw [SubState.error_inactive (by rw [hinb, hb]) e]
            rw [hinb, hb, Bool.or_true]
        | false =>
            rw [SubState.error_active (by rw [hinb, hb]) e]
            rw [Bool.or_true]
      · cases hb : b with
        | true =>
            rw [SubState.error_inactive (by rw [hinb, hb]) e]
            rw [hb] at hcnt
            exact hcnt
        | false =>
            rw [SubState.error_active (by rw [hinb, hb]) e]
            show ((s.down.events ++ [Ev.onError e]).filter
              Ev.isError).length = _
            rw [filter_isError_append_onError]
            rw [hb] at hcnt
            rw [hcnt]
            decide

/-- Fold the error coupling over a well-formed trace (errors allowed). -/
theorem CLERel_run {n : Nat} (tr : List (Nat × InEv α)) :
    ∀ (c k : List Bool) (b : Bool) (s : CLState α),
      wfFrom n true c tr = true → CLERel n c k b s →
      CLERel n (tr.foldl clGhost (c, k, b)).1
        (tr.foldl clGhost (c, k, b)).2.1 (tr.foldl clGhost (c, k, b)).2.2
        (tr.foldl CLState.step s) := by
  induction tr with
  | nil => intro c k b s _ h; exact h
  | cons p rest ih =>
      intro c k b s hwf h
      obtain ⟨i, ev⟩ := p
      have hwf' := hwf
      simp only [wfFrom, Bool.and_eq_true, Bool.true_or,
        decide_eq_true_eq, Bool.not_eq_true', Bool.and_true] at hwf'
      obtain ⟨⟨hi, hterm⟩, hrest⟩ := hwf'
      exact ih _ _ _ _ hrest (CLERel_step h hi hterm)

theorem wlGhost_f_mono (tr : List (Nat × InEv α)) :
    ∀ (c : List Bool), (tr.foldl wlGhost (c, true)).2 = true := by
  induction tr with
  | nil => intro c; rfl
  | cons p rest ih =>
      intro c
      rw [List.foldl_cons]
      show (rest.foldl wlGhost (_, true || _)).2 = true
      rw [Bool.true_or]
      exact ih _

theorem wlGhost_f_of_err (tr : List (Nat × InEv α)) :
    ∀ (c : List Bool) (f : Bool), (0, InEv.complete) ∉ tr →
      (f = true ∨ c.getD 0 true = false) → anyErr tr = true →
      (tr.foldl wlGhost (c, f)).2 = true := by
  induction tr with
  | nil => intro c f _ _ hae; simp [anyErr] at hae
  | cons q rest ih =>
      intro c f hnotin hinv hae
      obtain ⟨qi, qe⟩ := q
      have hnotin' : (0, InEv.complete) ∉ rest := fun h =>
        hnotin (List.mem_cons_of_mem _ h)
      cases hf : f with
      | true =>
          rw [List.foldl_cons]
          show (rest.foldl wlGhost (_, true || _)).2 = true
          rw [Bool.true_or]
          exact wlGhost_f_mono rest _
      | false =>
          have hc0 : c.getD 0 true = false := by
            rcases hinv with h1 | h2
            · rw [hf] at h1; cases h1
            · exact h2
          rw [List.foldl_cons]
          show (rest.foldl wlGhost
            (if qe.isTerminal then c.set qi true else c,
              false || (qe.isErr && !(c.getD 0 true || false)))).2 = true
          rw [hc0]
          simp only [Bool.or_false, Bool.false_or, Bool.not_false,
            Bool.and_true]
          by_cases hqe : qe.isErr = true
          · rw [hqe]
            exact wlGhost_f_mono rest _
          · have hqe' : qe.isErr = false := by simpa using hqe
            rw [hqe']
            have hae' : anyErr rest = true := by
              simp only [anyErr, List.any_cons, Bool.or_eq_true] at hae
              rcases hae with h1 | h2
              · exact absurd h1 hqe
              · exact h2
            refine ih _ _ hnotin' (Or.inr ?_) hae'
            cases hqt : qe.isTerminal with
            | false =>
                rw [if_neg Bool.false_ne_true]
                exact hc0
            | true =>
                have hqc : qe = InEv.complete := by
                  cases qe with
                  | next v => simp [InEv.isTerminal] at hqt
                  | complete => rfl
                  | error e => simp [InEv.isErr] at hqe'
                have hqi : qi ≠ 0 := by
                  intro h0
                  subst h0
                  rw [hqc] at hnotin
                  exact hnotin (List.mem_cons_self _ _)
                rw [if_pos rfl]
                rw [getD_set_ne hqi true true]
                exact hc0

theorem WERel_init (n : Nat) :
    WERel n (List.replicate (n + 1) false) false
      (WLState.init (α := α) n) := by
  refine ⟨rfl, by simp, ?_, rfl⟩
  rw [List.replicate_succ]
  rfl

theorem WERel_step {n : Nat} {c : List Bool} {f : Bool} {s : WLState α}
    (h : WERel n c f s) {i : Nat} {ev : InEv α}
    (hi : i < n + 1) (hterm : c.getD i true = false) :
    WERel n (if ev.isTerminal then c.set i true else c)
      (f || (ev.isErr && !(c.getD 0 true || f))) (s.step (i, ev)) := by
  obtain ⟨hup, hclen, hin, hcnt⟩ := h
  have hups : s.ups.getD i true = false := by rw [hup]; exact hterm
  cases i with
  | zero =>
      have hc0 : c.getD 0 true = false := hterm
      have hinf : s.down.inactive = f := by rw [hin, hc0, Bool.false_or]
      cases ev with
      | next v =>
          show WERel n c (f || (false && _)) _
          rw [Bool.false_and, Bool.or_false, WLState.step_src_next v hups]
          refine ⟨?_, hclen, ?_, ?_⟩
          · show (if allSome s.slots = true then _ else s).ups = c
            split
            · exact hup
            · exact hup
          · show (if allSome s.slots = true
                then { s with
                  down := s.down.next (v :: currentTuple s.slots) }
                else s).down.inactive = _
            split
            · rw [SubState.next_inactive_eq]; exact hin
            · exact hin
          · show ((if allSome s.slots = true
                then { s with
                  down := s.down.next (v :: currentTuple s.slots) }
                else s).down.events.filter Ev.isError).length = _
            split
            · rw [SubState.next_filter_isError]; exact hcnt
            · exact hcnt
      | complete =>
          show WERel n (c.set 0 true) (f || (false && _)) _
          rw [Bool.false_and, Bool.or_false, WLState.step_src_complete hups]
          have hc0' : (c.set 0 true).getD 0 true = true :=
            getD_set_self (hclen ▸ hi) true true
          cases hfv : f with
          | true =>
              rw [SubState.complete_inactive (by rw [hinf, hfv])]
              refine ⟨by rw [hup], by simp [hclen], ?_, ?_⟩
              · rw [hinf, hfv, hc0']
                rfl
              · rw [hfv] at hcnt; exact hcnt
          | false =>
              rw [SubState.complete_active (by rw [hinf, hfv])]
              refine ⟨by rw [hup], by simp [hclen], ?_, ?_⟩
              · rw [hc0']
                rfl
              · show ((s.down.events ++ [Ev.onComplete]).filter
                    Ev.isError).length = _
                rw [filter_isError_append_onComplete]
                rw [hfv] at hcnt
                exact hcnt
      | error e =>
          show WERel n (c.set 0 true)
            (f || (true && !(c.getD 0 true || f))) _
          rw [hc0, Bool.false_or, Bool.true_and,
            WLState.step_src_error e hups]
          have hc0' : (c.set 0 true).getD 0 true = true :=
            getD_set_self (hclen ▸ hi) true true
          cases hfv : f with
          | true =>
              rw [SubState.error_inactive (by rw [hinf, hfv]) e]
              refine ⟨by rw [hup], by simp [hclen], ?_, ?_⟩
              · rw [hinf, hfv, hc0']
                rfl
              · rw [hfv] at hcnt
                simpa using hcnt
          | false =>
              rw [SubState.error_active (by rw [hinf, hfv]) e]
              refine ⟨by rw [hup], by simp [hclen], ?_, ?_⟩
              · rw [hc0']
                rfl
              · show ((s.down.events ++ [Ev.onError e]).filter
                    Ev.isError).length = _
                rw [filter_isError_append_onError]
                rw [hfv] at hcnt
                rw [hcnt]
                decide
  | succ j =>
      cases ev with
      | next v =>
          show WERel n c (f || (false && _)) _
          rw [Bool.false_and, Bool.or_false, WLState.step_oth_next v hups]
          exact ⟨hup, hclen, hin, hcnt⟩
      | complete =>
          show WERel n (c.set (j + 1) true) (f || (false && _)) _
          rw [Bool.false_and, Bool.or_false, WLState.step_oth_complete hups]
          refine ⟨by rw [hup], by simp [hclen], ?_, hcnt⟩
          rw [hin, getD_set_ne (by omega) true true]
      | error e =>
          show WERel n (c.set (j + 1) true)
            (f || (true && !(c.getD 0 true || f))) _
          rw [Bool.true_and, WLState.step_oth_error e hups]
          have hgc : (c.set (j + 1) true).getD 0 true = c.getD 0 true :=
            getD_set_ne (by omega) true true
          cases hcf : (c.getD 0 true || f) with
          | true =>
              have hdi : s.down.inactive = true := by rw [hin, hcf]
              rw [SubState.error_inactive hdi e]
              simp only [Bool.not_true, Bool.or_false]
              refine ⟨by rw [hup], by simp [hclen], ?_, hcnt⟩
              rw [hdi, hgc, hcf]
          | false =>
              have hc0 : c.getD 0 true = false := by
                cases hx : c.getD 0 true with
                | false => rfl
                | true => rw [hx] at hcf; simp at hcf
              have hfv : f = false := by
                cases hx : f with
                | false => rfl
                | true => rw [hx] at hcf; simp at hcf
              have hdi : s.down.inactive = false := by rw [hin, hcf]
              rw [SubState.error_active hdi e]
              simp only [Bool.not_false, Bool.or_true]
              refine ⟨by rw [hup], by simp [hclen], by simp, ?_⟩
              show ((s.down.events ++ [Ev.onError e]).filter
                  Ev.isError).length = _
              rw [filter_isError_append_onError]
              rw [hfv] at hcnt
              rw [hcnt]
              decide

/-- Fold the `withLatestFrom` error coupling over a well-formed trace. -/
theorem WERel_run {n : Nat} (tr : List (Nat × InEv α)) :
    ∀ (c : List Bool) (f : Bool) (s : WLState α),
      wfFrom n true c tr = true → WERel n c f s →
      WERel n (tr.foldl wlGhost (c, f)).1 (tr.foldl wlGhost (c, f)).2
        (tr.foldl WLState.step s) := by
  induction tr with
  | nil => intro c f s _ h; exact h
  | cons p rest ih =>
      intro c f s hwf h
      obtain ⟨i, ev⟩ := p
      have hwf' := hwf
      simp only [wfFrom, Bool.and_eq_true, Bool.true_or,
        decide_eq_true_eq, Bool.not_eq_true', Bool.and_true] at hwf'
      obtain ⟨⟨hi, hterm⟩, hrest⟩ := hwf'
      exact ih _ _ _ hrest (WERel_step h hi hterm)

/-- **C8 (amended).** When an input of `combineLatest` or `withLatestFrom`
errors, the error is forwarded downstream at most once (first error wins;
in `combineLatest` exactly once over any well-formed trace with an error,
in `withLatestFrom` exactly once provided the source has not completed),
and no downstream callback of any kind follows the downstream terminal.
However the operator does **not** cancel the other upstream subscriptions
at that point: the error path only latches the erroring input's own
intermediate Subscriber and forwards the error — every other input's
latch, the slots and the completed flags are untouched (the other
subscriptions are released only when the downstream Subscription's
teardown runs). -/
theorem claim8_error_handling_amended (n : Nat)
    (tr : List (Nat × InEv α)) (hwf : wfTrace n true tr = true) :
    (anyErr tr = true →
      ((clRun n tr).down.events.filter Ev.isError).length = 1) ∧
      lastOnlyTerminal (clRun n tr).down.events = true ∧
      ((wlRun n tr).down.events.filter Ev.isError).length ≤ 1 ∧
      (anyErr tr = true → (0, InEv.complete) ∉ tr →
        ((wlRun n tr).down.events.filter Ev.isError).length = 1) ∧
      lastOnlyTerminal (wlRun n tr).down.events = true ∧
      (∀ (s : CLState α) (i e : Nat), s.ups.getD i true = false →
        (s.step (i, InEv.error e)).ups = s.ups.set i true ∧
        (s.step (i, InEv.error e)).slots = s.slots ∧
        (s.step (i, InEv.error e)).flags = s.flags) ∧
      (∀ (s : WLState α) (i e : Nat), s.ups.getD i true = false →
        (s.step (i, InEv.error e)).ups = s.ups.set i true ∧
        (s.step (i, InEv.error e)).slots = s.slots) := by
  have hcl := CLERel_run (n := n) tr (List.replicate (n + 1) false)
    (List.replicate (n + 1) false) false (CLState.init n) hwf
    (CLERel_init n)
  have hwl := WERel_run (n := n) tr (List.replicate (n + 1) false) false
    (WLState.init n) hwf (WERel_init n)
  obtain ⟨_, _, _, _, _, _, hclcnt⟩ := hcl
  obtain ⟨_, _, _, hwlcnt⟩ := hwl
  refine ⟨?_, (clRun_down_good n tr).2, ?_, ?_,
    (wlRun_down_good n tr).2, ?_, ?_⟩
  · intro hae
    rw [clGhost_err tr _] at hclcnt
    rw [hae] at hclcnt
    simpa using hclcnt
  · rw [show (wlRun n tr) = tr.foldl WLState.step (WLState.init n)
      from rfl]
    rw [hwlcnt]
    cases (tr.foldl wlGhost (List.replicate (n + 1) false, false)).2 <;>
      simp
  · intro hae hnotin
    have hf := wlGhost_f_of_err tr (List.replicate (n + 1) false) false
      hnotin (Or.inr (by rw [List.replicate_succ]; rfl)) hae
    rw [show (wlRun n tr) = tr.foldl WLState.step (WLState.init n)
      from rfl]
    rw [hwlcnt, hf]
    decide
  · intro s i e hact
    rw [CLState_step_error e hact]
    exact ⟨rfl, rfl, rfl⟩
  · intro s i e hact
    cases i with
    | zero =>
        rw [WLState.step_src_error e hact]
        exact ⟨rfl, rfl⟩
    | succ j =>
        rw [WLState.step_oth_error e hact]
        exact ⟨rfl, rfl⟩

/-- Witness for C8: with one other input, the other emits 5, then the
source errors — the downstream of `combineLatest` receives exactly one
`onError`. -/
theorem claim8_error_handling_amended_witness :
    wfTrace 1 true [(1, InEv.next 5), (0, InEv.error 3)] = true ∧
      anyErr [(1, InEv.next (5 : Nat)), (0, InEv.error 3)] = true ∧
      ((clRun 1 [(1, InEv.next 5),
        (0, InEv.error 3)]).down.events.filter Ev.isError).length = 1 := by
  refine ⟨by decide, by decide, ?_⟩
  exact (claim8_error_handling_amended 1
    [(1, InEv.next 5), (0, InEv.error 3)] (by decide)).1 (by decide)

/-- **C8, counterexample to the claim as stated.**  `combineLatest` with
one other input; the source errors first.  The error is forwarded
downstream, but the other input's intermediate Subscriber is *not*
cancelled: its inactive latch is still `false`, so the other input's
producer still observes an active subscriber — contradicting "every other
upstream subscription the operator opened is cancelled (unsubscribed) at
that point". -/
theorem claim8_counterexample :
    (clRun (α := Nat) 1 [(0, InEv.error 7)]).down.events = [Ev.onError 7] ∧
      (clRun (α := Nat) 1 [(0, InEv.error 7)]).ups.getD 1 true = false ∧
      ¬ (clRun (α := Nat) 1 [(0, InEv.error 7)]).ups.getD 1 true = true := by
  decide

end RxLite
